import Mathlib

/-!
# Verification of the did-toolkit DID / DID-URL library

A shallow embedding of the Rust sources (`src/string.rs`, `src/did.rs`,
`src/url.rs`, `src/document.rs`, `src/registry.rs`) into Lean 4, together
with proofs and refutations of the specified properties.

Byte strings (`Vec<u8>` / `&str` contents) are modelled as `List Nat`,
with every byte `< 256`.  All parsers in the source operate on `&str`
values (valid UTF-8); the ASCII delimiters they split on occur in UTF-8
text exactly at the bytes with those values, so byte-level splitting is
faithful.  `String::from_utf8` on sub-slices of a `&str` cannot fail and
is modelled as the identity.
-/

set_option maxRecDepth 100000

deriving instance DecidableEq for Except

namespace DidToolkit

/-- Byte strings. -/
abbrev Bytes := List Nat

/-- ASCII bytes of a Lean string literal (used only for ASCII literals). -/
def str (s : String) : Bytes := s.data.map Char.toNat

/-- Uppercase hex digit for a value `< 16`, as in Rust's `format!("%{:02X}")`. -/
def hexUpper (n : Nat) : Nat := if n < 10 then 48 + n else 55 + n

/-- The three bytes `%XX` produced for an escaped byte. -/
def pctByte (c : Nat) : Bytes := [37, hexUpper (c / 16), hexUpper (c % 16)]

/-- The unescaped character class of `url_encoded_internal`:
`'0'..='9' | 'A'..='Z' | 'a'..='z' | '.' | '-' | '_'`. -/
def isSafeByte (c : Nat) : Bool :=
  (48 ≤ c && c ≤ 57) || (65 ≤ c && c ≤ 90) || (97 ≤ c && c ≤ 122) ||
  c == 46 || c == 45 || c == 95

/-- `string.rs`: `url_encoded_internal`.  Safe bytes pass through, `:` is
escaped only when `escape_colon`, everything else becomes `%XX`. -/
def url_encoded_internal (input : Bytes) (escape_colon : Bool) : Bytes :=
  match input with
  | [] => []
  | c :: rest =>
    (if isSafeByte c then [c]
     else if c == 58 then (if escape_colon then pctByte c else [c])
     else pctByte c) ++ url_encoded_internal rest escape_colon

/-- `string.rs`: `url_encoded` (escapes the colon). -/
def url_encoded (input : Bytes) : Bytes := url_encoded_internal input true

/-- `string.rs`: `method_id_encoded` (leaves the colon alone). -/
def method_id_encoded (input : Bytes) : Bytes := url_encoded_internal input false

/-- Hex digit class of the decoder: `'0'..='9' | 'a'..='f' | 'A'..='F'`. -/
def isHexByte (c : Nat) : Bool :=
  (48 ≤ c && c ≤ 57) || (97 ≤ c && c ≤ 102) || (65 ≤ c && c ≤ 70)

/-- `char::to_digit(16)` on a hex digit byte. -/
def hexVal (c : Nat) : Nat :=
  if c ≤ 57 then c - 48 else if c ≤ 70 then c - 55 else c - 87

/-- The decoder's mutable state in `url_decoded`: `hexval`, `hexleft`, `in_pct`. -/
structure DecState where
  hexval : Nat
  hexleft : Bool
  in_pct : Bool
  deriving DecidableEq

/-- The initial decoder state (`hexval = 0`, `hexleft = true`, `in_pct = false`). -/
def decInit : DecState := ⟨0, true, false⟩

/-- One iteration of the loop body of `url_decoded`: next state and emitted bytes. -/
def decStep (st : DecState) (c : Nat) : DecState × Bytes :=
  if c == 37 then ({ st with in_pct := true }, [])
  else if isHexByte c then
    if st.in_pct then
      let val := hexVal c
      let hexval := st.hexval ||| (if st.hexleft then val <<< 4 else val)
      if st.hexleft then ({ hexval := hexval, hexleft := false, in_pct := st.in_pct }, [])
      else (decInit, [hexval])
    else (st, [c])
  else (st, [c])

/-- The decoder loop of `url_decoded`, from an arbitrary state. -/
def decRun (st : DecState) : Bytes → Bytes
  | [] => []
  | c :: rest =>
    let p := decStep st c
    p.2 ++ decRun p.1 rest

/-- `string.rs`: `url_decoded`.  Total; `%XX` becomes one byte, everything
else is pushed through the state machine above. -/
def url_decoded (s : Bytes) : Bytes := decRun decInit s

/-- `string.rs`: `validate_method_name`, as a Boolean: every byte must be in
`0x61..=0x7a` or `'0'..='9'`. -/
def validate_method_name (s : Bytes) : Bool :=
  s.all fun c => (97 ≤ c && c ≤ 122) || (48 ≤ c && c ≤ 57)

/-- Final decoder state after consuming a byte string. -/
def decFinal (st : DecState) : Bytes → DecState
  | [] => st
  | c :: rest => decFinal (decStep st c).1 rest

theorem decRun_append (st : DecState) (a b : Bytes) :
    decRun st (a ++ b) = decRun st a ++ decRun (decFinal st a) b := by
  induction a generalizing st with
  | nil => simp [decRun, decFinal]
  | cons c rest ih => simp [decRun, decFinal, ih]

/-- The bytes emitted for a single encoded byte: a fresh decoder consumes the
encoding of any byte `c < 256` (under either escaping convention), emits
exactly `c`, and returns to the fresh state. -/
theorem decode_encByte :
    ∀ (esc : Bool), ∀ c < 256, decRun decInit (url_encoded_internal [c] esc) = [c] ∧
      decFinal decInit (url_encoded_internal [c] esc) = decInit := by
  decide

/-- Round trip `url_decoded (url_encoded_internal b esc) = b` for byte lists. -/
theorem decode_encode (esc : Bool) (b : Bytes) (hb : ∀ c ∈ b, c < 256) :
    url_decoded (url_encoded_internal b esc) = b := by
  induction b with
  | nil => rfl
  | cons c rest ih =>
    have hc : c < 256 := hb c (by simp)
    have hrest : ∀ x ∈ rest, x < 256 := fun x hx => hb x (by simp [hx])
    have henc : url_encoded_internal (c :: rest) esc =
        url_encoded_internal [c] esc ++ url_encoded_internal rest esc := by
      simp [url_encoded_internal]
    have hstep := decode_encByte esc c hc
    have hcons : [c] ++ rest = c :: rest := rfl
    calc url_decoded (url_encoded_internal (c :: rest) esc)
        = decRun decInit (url_encoded_internal [c] esc ++ url_encoded_internal rest esc) := by
          rw [url_decoded, henc]
      _ = decRun decInit (url_encoded_internal [c] esc) ++
            decRun (decFinal decInit (url_encoded_internal [c] esc))
              (url_encoded_internal rest esc) := decRun_append ..
      _ = [c] ++ decRun decInit (url_encoded_internal rest esc) := by
          rw [hstep.1, hstep.2]
      _ = c :: rest := by rw [← url_decoded, ih hrest, hcons]

/-! ## Splitting helpers (`str::split_once`, `strip_prefix`, `before`) -/

/-- `str::split_once(c)`: split at the first occurrence of byte `c`. -/
def splitOnce (c : Nat) : Bytes → Option (Bytes × Bytes)
  | [] => none
  | x :: rest =>
    if x == c then some ([], rest)
    else match splitOnce c rest with
      | some (l, r) => some (x :: l, r)
      | none => none

/-- `s.strip_prefix("did:")`. -/
def stripDid : Bytes → Option Bytes
  | 100 :: 105 :: 100 :: 58 :: rest => some rest
  | _ => none

/-- `url.rs`: `before(s, left, right)` — does `left` occur strictly before any
occurrence of `right`? -/
def before (s : Bytes) (left right : Nat) : Bool :=
  match s with
  | [] => false
  | c :: rest =>
    if c == left then true
    else if c == right then false
    else before rest left right

/-! ## `src/did.rs` -/

/-- `did.rs`: the `DID` struct: raw method name and method-specific id bytes. -/
structure DID where
  name : Bytes
  id : Bytes
  deriving DecidableEq, Repr

/-- `did.rs`: `DID::parse`.  Strips `did:`, splits at the first `:`, rejects
empty halves, validates the method name — and stores both halves verbatim. -/
def DID.parse (s : Bytes) : Option DID :=
  match stripDid s with
  | some s =>
    match splitOnce 58 s with
    | some (method_name, method_id) =>
      if method_id == [] then none
      else if method_name == [] then none
      else if validate_method_name method_name then some ⟨method_name, method_id⟩
      else none
    | none => none
  | none => none

/-- `did.rs`: `impl Display for DID`. -/
def DID.toText (d : DID) : Bytes :=
  str "did:" ++ url_encoded d.name ++ [58] ++ method_id_encoded d.id

/-! ## `src/time.rs` / the external `time` collaborator

`VersionTime` wraps an external calendar type (`time::OffsetDateTime`); its
parsing and formatting are delegated to the external `time` crate.
Modelled from the spec: "a VersionTime value type parsing/formatting
`YYYY-MM-DDTHH:MM:SSZ`" (§6), consumed as an external collaborator. -/
structure VersionTime where
  year : Nat
  month : Nat
  day : Nat
  hour : Nat
  minute : Nat
  second : Nat
  deriving DecidableEq, Repr

/-- Two ASCII digits to a number. -/
def twoDigits : Bytes → Option Nat
  | [a, b] =>
    if 48 ≤ a && a ≤ 57 && 48 ≤ b && b ≤ 57 then some ((a - 48) * 10 + (b - 48)) else none
  | _ => none

/-- Modelled from the spec: the external `time` collaborator's fixed-format
parse of `YYYY-MM-DDTHH:MM:SSZ` (used by `VersionTime::parse`). -/
def VersionTime.parse (s : Bytes) : Option VersionTime :=
  match s with
  | [y1, y2, y3, y4, 45, mo1, mo2, 45, d1, d2, 84, h1, h2, 58, mi1, mi2, 58, s1, s2, 90] =>
    match twoDigits [y1, y2], twoDigits [y3, y4], twoDigits [mo1, mo2], twoDigits [d1, d2],
        twoDigits [h1, h2], twoDigits [mi1, mi2], twoDigits [s1, s2] with
    | some yh, some yl, some mo, some d, some h, some mi, some sec =>
      if 1 ≤ mo && mo ≤ 12 && 1 ≤ d && d ≤ 31 && h ≤ 23 && mi ≤ 59 && sec ≤ 59 then
        some ⟨yh * 100 + yl, mo, d, h, mi, sec⟩
      else none
    | _, _, _, _, _, _, _ => none
  | _ => none

/-- Decimal digits (fuel-based so the kernel can evaluate it). -/
def natDecAux : Nat → Nat → Bytes
  | 0, _ => []
  | f + 1, n => if n < 10 then [48 + n] else natDecAux f (n / 10) ++ [48 + n % 10]

/-- Decimal digits of a number (no padding), as in `format!("{}")`. -/
def natDec (n : Nat) : Bytes := natDecAux (n + 1) n

/-- Two-digit zero padding, as in `format!("{:02}")`. -/
def pad2 (n : Nat) : Bytes := if n < 10 then [48, 48 + n] else natDec n

/-- `time.rs`: `impl Display for VersionTime`. -/
def VersionTime.toText (v : VersionTime) : Bytes :=
  natDec v.year ++ [45] ++ pad2 v.month ++ [45] ++ pad2 v.day ++ [84] ++
  pad2 v.hour ++ [58] ++ pad2 v.minute ++ [58] ++ pad2 v.second ++ [90]

/-! ## `src/url.rs`: data model -/

/-- Strict lexicographic order on byte strings — the `Ord` of `Vec<u8>`,
used by `BTreeMap<Vec<u8>, _>`. -/
def bytesLt : Bytes → Bytes → Bool
  | [], [] => false
  | [], _ :: _ => true
  | _ :: _, [] => false
  | a :: l1, b :: l2 => if a < b then true else if b < a then false else bytesLt l1 l2

/-- `BTreeMap<Vec<u8>, Vec<u8>>` as a list of pairs sorted by key; this is
also its iteration order.  `insert` replaces the value of an equal key. -/
def mapInsert (k v : Bytes) : List (Bytes × Bytes) → List (Bytes × Bytes)
  | [] => [(k, v)]
  | (k', v') :: rest =>
    if bytesLt k k' then (k, v) :: (k', v') :: rest
    else if k == k' then (k, v) :: rest
    else (k', v') :: mapInsert k v rest

/-- `url.rs`: the `URLParameters` struct.  String-typed fields (`service`,
`version_id`, `hash_link`) are byte strings of their UTF-8 text. -/
structure URLParameters where
  path : Option Bytes := none
  fragment : Option Bytes := none
  service : Option Bytes := none
  relative_ref : Option Bytes := none
  version_id : Option Bytes := none
  version_time : Option VersionTime := none
  hash_link : Option Bytes := none
  extra_query : Option (List (Bytes × Bytes)) := none
  deriving DecidableEq, Repr

/-- `url.rs`: the `URL` struct. -/
structure URL where
  did : DID
  parameters : Option URLParameters := none
  deriving DecidableEq, Repr

/-- `url.rs`: `URL::to_did`. -/
def URL.to_did (u : URL) : DID := u.did

/-! ## `src/url.rs`: `impl Display for URL` -/

/-- The condition guarding the `?` section of `Display for URL`. -/
def queryPresent (p : URLParameters) : Bool :=
  p.service.isSome || p.relative_ref.isSome || p.version_id.isSome ||
  p.version_time.isSome || p.hash_link.isSome || p.extra_query.isSome

/-- `ret.strip_suffix('&')` with fallback to `ret`. -/
def stripAmpSuffix (s : Bytes) : Bytes :=
  if s.getLast? == some 38 then s.dropLast else s

/-- The query text accumulated by `Display for URL` (each piece followed by
`&`; the trailing `&` is stripped afterwards). -/
def queryText (p : URLParameters) : Bytes :=
  (match p.service with | some s => str "service=" ++ s ++ [38] | none => []) ++
  (match p.relative_ref with
   | some r => str "relativeRef=" ++ url_encoded r ++ [38] | none => []) ++
  (match p.version_id with | some v => str "versionId=" ++ v ++ [38] | none => []) ++
  (match p.version_time with
   | some vt => str "versionTime=" ++ vt.toText ++ [38] | none => []) ++
  (match p.hash_link with | some h => str "hl=" ++ h ++ [38] | none => []) ++
  (match p.extra_query with
   | some m => (m.map fun kv => url_encoded kv.1 ++ [61] ++ url_encoded kv.2 ++ [38]).flatten
   | none => [])

/-- `url.rs`: `impl Display for URL`. -/
def URL.toText (u : URL) : Bytes :=
  str "did:" ++ url_encoded u.did.name ++ [58] ++ method_id_encoded u.did.id ++
  match u.parameters with
  | none => []
  | some p =>
    (match p.path with | some pa => [47] ++ url_encoded pa | none => []) ++
    (if queryPresent p then stripAmpSuffix ([63] ++ queryText p) else []) ++
    (match p.fragment with | some f => [35] ++ url_encoded f | none => [])

/-! ## `src/url.rs`: `URL::parse` and helpers -/

/-- `s.split('&')` (all parts, empty parts included). -/
def splitAmpAux (acc : Bytes) : Bytes → List Bytes
  | [] => [acc.reverse]
  | c :: rest => if c == 38 then acc.reverse :: splitAmpAux [] rest
                 else splitAmpAux (c :: acc) rest

/-- `s.split('&')`. -/
def splitAmp (s : Bytes) : List Bytes := splitAmpAux [] s

/-- `url.rs`: `URL::match_fixed_query_params`.  Reserved keys set typed
fields (`self.parameters` always becomes `Some`); other keys are
percent-decoded and inserted into the `extra_query` accumulator. -/
def URL.match_fixed_query_params (u : URL) (left right : Bytes)
    (extra_query : List (Bytes × Bytes)) : Option (URL × List (Bytes × Bytes)) :=
  let params := u.parameters.getD {}
  if left == str "service" then
    some ({ u with parameters := some { params with service := some right } }, extra_query)
  else if left == str "relativeRef" then
    some ({ u with parameters := some { params with relative_ref := some (url_decoded right) } },
      extra_query)
  else if left == str "versionId" then
    some ({ u with parameters := some { params with version_id := some right } }, extra_query)
  else if left == str "versionTime" then
    match VersionTime.parse right with
    | some vt =>
      some ({ u with parameters := some { params with version_time := some vt } }, extra_query)
    | none => none
  else if left == str "hl" then
    some ({ u with parameters := some { params with hash_link := some right } }, extra_query)
  else
    some ({ u with parameters := some params },
      mapInsert (url_decoded left) (url_decoded right) extra_query)

/-- The loop of `URL::parse_query` over the `&`-separated parts. -/
def URL.parse_query_parts (u : URL) (extra_query : List (Bytes × Bytes)) :
    List Bytes → Option (URL × List (Bytes × Bytes))
  | [] => some (u, extra_query)
  | part :: rest =>
    match splitOnce 61 part with
    | some (l, r) =>
      match u.match_fixed_query_params l r extra_query with
      | some (u', eq') => URL.parse_query_parts u' eq' rest
      | none => none
    | none => URL.parse_query_parts u (mapInsert (url_decoded part) [] extra_query) rest

/-- The final step of `URL::parse_query`: a non-empty `extra_query`
accumulator is stored into the parameters. -/
def URL.setExtra (u : URL) (extra_query : List (Bytes × Bytes)) : URL :=
  if extra_query.isEmpty then u
  else
    let params := u.parameters.getD {}
    { u with parameters := some { params with extra_query := some extra_query } }

/-- `url.rs`: `URL::parse_query`. -/
def URL.parse_query (u : URL) (query : Bytes) : Option URL :=
  if !(query.contains 38) then
    match splitOnce 61 query with
    | some (l, r) =>
      match u.match_fixed_query_params l r [] with
      | some (u', eq') => some (u'.setExtra eq')
      | none => none
    | none => some (u.setExtra (mapInsert (url_decoded query) [] []))
  else
    match URL.parse_query_parts u [] (splitAmp query) with
    | some (u', eq') => some (u'.setExtra eq')
    | none => none

/-- `url.rs`: `URL::match_fragment`. -/
def URL.match_fragment (method_name method_id : Bytes) (path : Option Bytes)
    (query : Option Bytes) (fragment : Bytes) : Option URL :=
  if validate_method_name method_name then
    let u : URL := { did := ⟨url_decoded method_name, url_decoded method_id⟩,
                     parameters := some { fragment := some (url_decoded fragment),
                                          path := path.map url_decoded } }
    match query with
    | some q => u.parse_query q
    | none => some u
  else none

/-- `url.rs`: `URL::match_query`. -/
def URL.match_query (method_name method_id : Bytes) (path : Option Bytes)
    (query : Bytes) : Option URL :=
  match splitOnce 35 query with
  | some (q, fragment) => URL.match_fragment method_name method_id path (some q) fragment
  | none =>
    if validate_method_name method_name then
      let u : URL := { did := ⟨url_decoded method_name, url_decoded method_id⟩,
                       parameters := some { path := path.map url_decoded } }
      u.parse_query query
    else none

/-- `url.rs`: `URL::match_path`. -/
def URL.match_path (method_name method_id left : Bytes) : Option URL :=
  if !(before left 35 63) then
    match splitOnce 63 left with
    | some (path, q) => URL.match_query method_name method_id (some path) q
    | none =>
      match splitOnce 35 left with
      | some (path, fragment) =>
        URL.match_fragment method_name method_id (some path) none fragment
      | none =>
        if validate_method_name method_name then
          some { did := ⟨url_decoded method_name, url_decoded method_id⟩,
                 parameters := some { path := some (url_decoded left) } }
        else none
  else
    match splitOnce 35 left with
    | some (path, fragment) =>
      URL.match_fragment method_name method_id (some path) none fragment
    | none =>
      if validate_method_name method_name then
        some { did := ⟨url_decoded method_name, url_decoded method_id⟩,
               parameters := some { path := some (url_decoded left) } }
      else none

/-- `url.rs`: `URL::split_fragment`. -/
def URL.split_fragment (method_name right : Bytes) : Option URL :=
  match splitOnce 35 right with
  | some (method_id, fragment) =>
    URL.match_fragment method_name method_id none none fragment
  | none =>
    if validate_method_name method_name then
      some { did := ⟨url_decoded method_name, url_decoded right⟩ }
    else none

/-- `url.rs`: `URL::split_query`. -/
def URL.split_query (method_name right : Bytes) : Option URL :=
  match splitOnce 63 right with
  | some (method_id, q) => URL.match_query method_name method_id none q
  | none => URL.split_fragment method_name right

/-- `url.rs`: `URL::parse`. -/
def URL.parse (s : Bytes) : Option URL :=
  match stripDid s with
  | some s =>
    match splitOnce 58 s with
    | some (method_name, right) =>
      if !(before right 63 47) && !(before right 35 47) then
        match splitOnce 47 right with
        | some (method_id, path) => URL.match_path method_name method_id path
        | none => URL.split_query method_name right
      else if before right 63 35 then URL.split_query method_name right
      else URL.split_fragment method_name right
    | none => none
  | none => none

/-! ## `src/document.rs`: data model

`BTreeSet`s are modelled as lists in their iteration (sorted) order.
Key material is opaque: the spec treats JWK / Multibase values as external
collaborators ("consumed as an opaque Key value type"). -/

/-- An external hypertext URL (the `url::Url` crate type), opaque text. -/
structure WebUrl where
  text : Bytes
  deriving DecidableEq, Repr

/-- `jwk.rs`: `JWK` — opaque external key material (the `josekit` crate). -/
structure JWK where
  key : Bytes
  deriving DecidableEq, Repr

/-- `multibase.rs`: `MultiBase(Vec<u8>)`. -/
structure MultiBase where
  bytes : Bytes
  deriving DecidableEq, Repr

/-- `document.rs`: `VerificationMethodType` (closed enumeration). -/
inductive VerificationMethodType
  | JWK2020
  | ECDSASECP256K12019
  | Ed255192018
  | Bls12381G12020
  | Bls12381G22020
  | PGP2021
  | ECDSASECP256K1Recovery2020
  | VerifiableCondition2021
  deriving DecidableEq, Repr

/-- `document.rs`: `VerificationMethod`. -/
structure VerificationMethod where
  id : URL
  controller : DID
  typ : VerificationMethodType := .JWK2020
  public_key_jwk : Option JWK := none
  public_key_multibase : Option MultiBase := none
  deriving DecidableEq, Repr

/-- `document.rs`: `VerificationMethodEither(Either<VerificationMethod, URL>)`. -/
abbrev VerificationMethodEither := Sum VerificationMethod URL

/-- `document.rs`: `AlsoKnownAsEither(Either<DID, Url>)`. -/
abbrev AlsoKnownAsEither := Sum DID WebUrl

/-- `document.rs`: `Controller(Either<DID, BTreeSet<DID>>)`. -/
abbrev Controller := Sum DID (List DID)

/-- `document.rs`: `Context(Either<Url, BTreeSet<Url>>)`. -/
abbrev Context := Sum WebUrl (List WebUrl)

/-- `document.rs`: `ServiceTypes` / `ServiceEndpoints` / `ServiceEndpoint`. -/
inductive ServiceType
  | CredentialRegistry
  | LinkedDomains
  deriving DecidableEq, Repr

/-- `document.rs`: `ServiceEndpointProperties`. -/
structure ServiceEndpointProperties where
  origins : Option (List WebUrl) := none
  registries : Option (List WebUrl) := none
  deriving DecidableEq, Repr

/-- `document.rs`: `ServiceEndpoint`. -/
structure ServiceEndpoint where
  id : WebUrl
  typ : Sum ServiceType (List ServiceType)
  endpoint : Sum WebUrl ServiceEndpointProperties
  deriving DecidableEq, Repr

/-- `document.rs`: `Document`. -/
structure Document where
  context : Option Context := none
  id : DID
  also_known_as : Option (List AlsoKnownAsEither) := none
  controller : Option Controller := none
  verification_method : Option (List VerificationMethod) := none
  authentication : Option (List VerificationMethodEither) := none
  assertion_method : Option (List VerificationMethodEither) := none
  key_agreement : Option (List VerificationMethodEither) := none
  capability_invocation : Option (List VerificationMethodEither) := none
  capability_delegation : Option (List VerificationMethodEither) := none
  service : Option (List ServiceEndpoint) := none
  deriving DecidableEq, Repr

/-! ## `src/registry.rs`

The registry's remote-fetch path (`cache_document` with `remote_cache`
enabled) performs network IO through `reqwest` — an external collaborator
(spec §1).  The embedding models the default registry (`Registry::default()`,
`remote_cache = false`), in which `cache_document` always returns the
"Remote caching of documents is disabled" error. -/

/-- `registry.rs`: `Registry` — a `BTreeMap<DID, Document>` as an association
list in key order (any list with the right lookup behaviour works for the
theorems below). -/
structure Registry where
  r : List (DID × Document) := []
  deriving DecidableEq, Repr

/-- The distinct error exits of the registry operations modelled here. -/
inductive RegError
  | unknownIdentifier (did : DID)
  | remoteCacheDisabled
  deriving DecidableEq, Repr

/-- `registry.rs`: `Registry::get`. -/
def Registry.get (reg : Registry) (did : DID) : Option Document :=
  (reg.r.find? fun p => p.1 == did).map (·.2)

/-- `registry.rs`: `Registry::insert` (fails on an existing id; the map is
keyed by `doc.id`). -/
def Registry.insert (reg : Registry) (doc : Document) : Option Registry :=
  if (reg.get doc.id).isSome then none
  else some ⟨reg.r ++ [(doc.id, doc)]⟩

/-- `registry.rs`: `Registry::controls`.  The subject's document is fetched
first; `Ok(true)` for `did == controller` happens only inside that branch. -/
def Registry.controls (reg : Registry) (did controller : DID) : Except RegError Bool :=
  match reg.get did with
  | some did_doc =>
    if did == controller then .ok true
    else if (reg.get controller).isSome then
      match did_doc.controller with
      | some c =>
        match c with
        | .inl d => .ok (d == controller)
        | .inr dids => if dids.contains controller then .ok true else .ok false
      | none => .ok false
    else .error (.unknownIdentifier did)
  | none => .error (.unknownIdentifier did)

/-- The loop of `Registry::compare_aka` over `other_doc`'s `also_known_as`
entries.  A `Url` entry calls `cache_document`, which fails with the
remote cache disabled. -/
def compareAkaLoop (did this_did : DID) (other_doc : Document) :
    List AlsoKnownAsEither → Except RegError Bool
  | [] => .ok false
  | entry :: rest =>
    match entry with
    | .inl other_did =>
      if other_did == did && this_did == other_doc.id then .ok true
      else compareAkaLoop did this_did other_doc rest
    | .inr _ => .error .remoteCacheDisabled

/-- `registry.rs`: `Registry::compare_aka`. -/
def Registry.compare_aka (_reg : Registry) (did this_did : DID) (other_doc : Document) :
    Except RegError Bool :=
  match other_doc.also_known_as with
  | some other_aka => compareAkaLoop did this_did other_doc other_aka
  | none => .ok false

/-- The loop of `Registry::equivalent_to_did` over `did`'s `also_known_as`
entries. -/
def equivalentLoop (reg : Registry) (did : DID) (other_doc : Document) :
    List AlsoKnownAsEither → Except RegError Bool
  | [] => .ok false
  | entry :: rest =>
    match entry with
    | .inl this_did =>
      match reg.compare_aka did this_did other_doc with
      | .ok true => .ok true
      | .ok false => equivalentLoop reg did other_doc rest
      | .error e => .error e
    | .inr _ => .error .remoteCacheDisabled

/-- `registry.rs`: `Registry::equivalent_to_did`. -/
def Registry.equivalent_to_did (reg : Registry) (did other : DID) : Except RegError Bool :=
  match reg.get did with
  | some doc =>
    match reg.get other with
    | some other_doc =>
      match doc.also_known_as with
      | some this_aka => equivalentLoop reg did other_doc this_aka
      | none => .ok false
    | none => .error (.unknownIdentifier other)
  | none => .error (.unknownIdentifier did)

/-! ## `src/document.rs`: validation -/

/-- The distinct error exits of verification-method validation. -/
inductive VMError
  | conflictingKeyMaterial
  | noRegistryForReference
  | unknownReferencedIdentifier
  | verificationMethodNotFound
  deriving DecidableEq, Repr

/-- `document.rs`: `VerificationMethod::valid`. -/
def VerificationMethod.valid (vm : VerificationMethod) : Except VMError Unit :=
  if vm.public_key_jwk.isSome && vm.public_key_multibase.isSome then
    .error .conflictingKeyMaterial
  else .ok ()

/-- `document.rs`: `VerificationMethods::valid`, over the set's iteration
order.  Note the `return Ok(())` in the source when a referenced method is
found: it ends validation of the whole set. -/
def VerificationMethods.valid (reg : Option Registry) :
    List VerificationMethodEither → Except VMError Unit
  | [] => .ok ()
  | .inl vm :: rest =>
    match vm.valid with
    | .ok _ => VerificationMethods.valid reg rest
    | .error e => .error e
  | .inr url :: rest =>
    match reg with
    | some registry =>
      match registry.get url.to_did with
      | some doc =>
        match doc.verification_method with
        | some vms =>
          if vms.any fun vm => vm.id == url then .ok ()
          else .error .verificationMethodNotFound
        | none => VerificationMethods.valid reg rest
      | none => .error .unknownReferencedIdentifier
    | none => .error .noRegistryForReference

/-! ## `src/document.rs`: the ordering `BTreeSet<VerificationMethod>` uses

`VerificationMethod` derives `PartialOrd`/`Ord` in the source, so its
comparison is lexicographic over all five fields in declaration order —
`BTreeSet` membership is decided by this comparison, not by the id-keyed
`Hash` impl.  (`JWK`'s `Ord` in the source hashes the key material; here key
material is opaque bytes and compares as such — the claims never compare
two distinct JWK values.) -/

/-- `Ord` for `Nat` (`u8`). -/
def cmpNat (a b : Nat) : Ordering := if a < b then .lt else if b < a then .gt else .eq

/-- Derived `Ord` of `Vec<u8>` (lexicographic). -/
def cmpBytes : Bytes → Bytes → Ordering
  | [], [] => .eq
  | [], _ :: _ => .lt
  | _ :: _, [] => .gt
  | a :: l1, b :: l2 => (cmpNat a b).then (cmpBytes l1 l2)

/-- Derived `Ord` of `Option<T>`: `None < Some`. -/
def cmpOption (cmp : α → α → Ordering) : Option α → Option α → Ordering
  | none, none => .eq
  | none, some _ => .lt
  | some _, none => .gt
  | some a, some b => cmp a b

/-- Derived `Ord` of a list (`Vec`-style lexicographic). -/
def cmpList (cmp : α → α → Ordering) : List α → List α → Ordering
  | [], [] => .eq
  | [], _ :: _ => .lt
  | _ :: _, [] => .gt
  | a :: l1, b :: l2 => (cmp a b).then (cmpList cmp l1 l2)

/-- Derived `Ord` of `DID` (name, then id). -/
def cmpDID (a b : DID) : Ordering :=
  (cmpBytes a.name b.name).then (cmpBytes a.id b.id)

/-- Derived `Ord` of `VersionTime` (chronological, via the external
`OffsetDateTime` ordering; modelled field-wise). -/
def cmpVersionTime (a b : VersionTime) : Ordering :=
  (cmpNat a.year b.year).then ((cmpNat a.month b.month).then ((cmpNat a.day b.day).then
    ((cmpNat a.hour b.hour).then ((cmpNat a.minute b.minute).then
      (cmpNat a.second b.second)))))

/-- `Ord` of `BTreeMap<Vec<u8>, Vec<u8>>`: lexicographic over iterated pairs. -/
def cmpPairs : List (Bytes × Bytes) → List (Bytes × Bytes) → Ordering :=
  cmpList fun a b => (cmpBytes a.1 b.1).then (cmpBytes a.2 b.2)

/-- Derived `Ord` of `URLParameters` (declaration field order). -/
def cmpParams (a b : URLParameters) : Ordering :=
  (cmpOption cmpBytes a.path b.path).then
  ((cmpOption cmpBytes a.fragment b.fragment).then
  ((cmpOption cmpBytes a.service b.service).then
  ((cmpOption cmpBytes a.relative_ref b.relative_ref).then
  ((cmpOption cmpBytes a.version_id b.version_id).then
  ((cmpOption cmpVersionTime a.version_time b.version_time).then
  ((cmpOption cmpBytes a.hash_link b.hash_link).then
  (cmpOption cmpPairs a.extra_query b.extra_query)))))))

/-- Derived `Ord` of `URL` (did, then parameters). -/
def cmpURL (a b : URL) : Ordering :=
  (cmpDID a.did b.did).then (cmpOption cmpParams a.parameters b.parameters)

/-- Derived `Ord` of `VerificationMethodType` (discriminant order). -/
def VerificationMethodType.discr : VerificationMethodType → Nat
  | .JWK2020 => 0
  | .ECDSASECP256K12019 => 1
  | .Ed255192018 => 2
  | .Bls12381G12020 => 3
  | .Bls12381G22020 => 4
  | .PGP2021 => 5
  | .ECDSASECP256K1Recovery2020 => 6
  | .VerifiableCondition2021 => 7

/-- Derived `Ord` of `VerificationMethod`: lexicographic over ALL fields in
declaration order (`id`, `controller`, `typ`, `public_key_jwk`,
`public_key_multibase`) — this is what `BTreeSet<VerificationMethod>` keys
membership on. -/
def cmpVM (a b : VerificationMethod) : Ordering :=
  (cmpURL a.id b.id).then
  ((cmpDID a.controller b.controller).then
  ((cmpNat a.typ.discr b.typ.discr).then
  ((cmpOption (fun x y => cmpBytes x.key y.key) a.public_key_jwk b.public_key_jwk).then
  (cmpOption (fun x y => cmpBytes x.bytes y.bytes) a.public_key_multibase
    b.public_key_multibase))))

/-- `BTreeSet<VerificationMethod>::insert`: ordered insert that keeps the
existing element when the comparison says equal. -/
def btreeInsertVM (vm : VerificationMethod) : List VerificationMethod → List VerificationMethod
  | [] => [vm]
  | x :: rest =>
    match cmpVM vm x with
    | .lt => vm :: x :: rest
    | .eq => x :: rest
    | .gt => x :: btreeInsertVM vm rest

/-! ## Shared lemmas about the splitting helpers -/

theorem splitOnce_of_not_mem {c : Nat} {l : Bytes} (h : c ∉ l) : splitOnce c l = none := by
  induction l with
  | nil => rfl
  | cons x rest ih =>
    have hx : x ≠ c := fun hxc => h (hxc ▸ List.mem_cons_self x rest)
    have hr : c ∉ rest := fun hm => h (List.mem_cons_of_mem x hm)
    simp [splitOnce, hx, ih hr]

theorem splitOnce_append {c : Nat} {a : Bytes} (ha : c ∉ a) (b : Bytes) :
    splitOnce c (a ++ c :: b) = some (a, b) := by
  induction a with
  | nil => simp [splitOnce]
  | cons x rest ih =>
    have hx : x ≠ c := fun hxc => ha (hxc ▸ List.mem_cons_self x rest)
    have hr : c ∉ rest := fun hm => ha (List.mem_cons_of_mem x hm)
    simp [splitOnce, hx, ih hr]

theorem stripDid_append (rest : Bytes) : stripDid (str "did:" ++ rest) = some rest := rfl

/-! ## Claim theorems -/

/-- C2: decoding the encoding of any byte sequence returns exactly that
sequence, for both encoding variants (`url_encoded` and
`method_id_encoded`), including the empty sequence and all byte values. -/
theorem c2_codec_round_trip (b : Bytes) (hb : ∀ c ∈ b, c < 256) :
    url_decoded (url_encoded b) = b ∧ url_decoded (method_id_encoded b) = b :=
  ⟨decode_encode true b hb, decode_encode false b hb⟩

/-- Witness for C2 on a concrete byte string exercising safe bytes, `%`,
`:` and a high byte. -/
theorem c2_codec_round_trip_witness :
    (∀ c ∈ [0, 37, 58, 65, 97, 255], c < 256) ∧
      url_decoded (url_encoded [0, 37, 58, 65, 97, 255]) = [0, 37, 58, 65, 97, 255] ∧
      url_decoded (method_id_encoded [0, 37, 58, 65, 97, 255]) = [0, 37, 58, 65, 97, 255] :=
  ⟨by decide, c2_codec_round_trip [0, 37, 58, 65, 97, 255] (by decide)⟩

/-- C9, counterexample: a trailing `%` does NOT pass through to the output
literally — the decoder consumes every `%` and emits nothing for it. -/
theorem c9_percent_swallowed :
    url_decoded [37] = [] ∧ url_decoded [37] ≠ [37] := by decide

/-- C9, amended: the decoder is total; `%` followed by two hex digits from a
fresh state decodes to the corresponding byte; a byte that is neither `%`
nor a hex digit passes through literally in every state; a hex digit passes
through literally from a fresh state; but `%` itself is always consumed
(never emitted), so the bytes of malformed `%` sequences do not all pass
through literally. -/
theorem c9_decoder_amended :
    (∀ h1 h2 rest, isHexByte h1 = true → isHexByte h2 = true →
      url_decoded (37 :: h1 :: h2 :: rest) = (hexVal h1 <<< 4 ||| hexVal h2) :: url_decoded rest) ∧
    (∀ st c rest, isHexByte c = false → c ≠ 37 → decRun st (c :: rest) = c :: decRun st rest) ∧
    (∀ c rest, isHexByte c = true → url_decoded (c :: rest) = c :: url_decoded rest) ∧
    url_decoded [37] = [] := by
  refine ⟨?_, ?_, ?_, by decide⟩
  · intro h1 h2 rest hh1 hh2
    have h137 : h1 ≠ 37 := by intro h; rw [h] at hh1; exact absurd hh1 (by decide)
    have h237 : h2 ≠ 37 := by intro h; rw [h] at hh2; exact absurd hh2 (by decide)
    simp [url_decoded, decRun, decStep, decInit, hh1, hh2, h137, h237, Nat.zero_or]
  · intro st c rest hc h37
    have : (c == 37) = false := by simp [h37]
    simp [decRun, decStep, this, hc]
  · intro c rest hc
    have hc37 : c ≠ 37 := by intro h; rw [h] at hc; exact absurd hc (by decide)
    simp [url_decoded, decRun, decStep, decInit, hc, hc37]

/-- Witness for C9's amended theorem at concrete inputs. -/
theorem c9_decoder_amended_witness :
    url_decoded [37, 50, 48, 120] = [32, 120] ∧
      decRun decInit [103, 120] = [103, 120] ∧
      url_decoded [97, 120] = [97, 120] := by
  refine ⟨?_, ?_, ?_⟩
  · have h := c9_decoder_amended.1 50 48 [120] (by decide) (by decide)
    rw [h]; decide
  · have h := c9_decoder_amended.2.1 decInit 103 [120] (by decide) (by decide)
    rw [h]; decide
  · have h := c9_decoder_amended.2.2.1 97 [120] (by decide)
    rw [h]; decide

/-- C10: the Locator parser accepts `did::` — it returns a `URL` with empty
name and empty id and no parameters (the empty method name passes
`validate_method_name`), while `DID::parse` rejects the very same text. -/
theorem c10_locator_accepts_empty_halves :
    URL.parse (str "did::") = some ⟨⟨[], []⟩, none⟩ ∧
      DID.parse (str "did::") = none ∧
      validate_method_name [] = true := by decide

/-- C7, counterexample: `DID::parse` does NOT percent-decode the halves:
`did:abcdef:a%20b` parses to the id bytes `a%20b` verbatim, which do not
contain the decoded byte `0x20`. -/
theorem c7_parse_does_not_decode :
    DID.parse (str "did:abcdef:a%20b") = some ⟨str "abcdef", str "a%20b"⟩ ∧
      (str "a%20b").contains 32 = false ∧
      url_decoded (str "a%20b") ≠ str "a%20b" := by decide

/-- C7, amended: `DID::parse` strips a required `did:` prefix, splits the
remainder at the first `:` into name and id, fails when the prefix or the
separator is missing or either half is empty, validates the method name —
and stores both halves verbatim, without percent-decoding.  In particular
`did:abcdef:123456:u:alice` parses to name `abcdef`, id `123456:u:alice`. -/
theorem c7_did_parse_amended :
    (∀ name id : Bytes, 58 ∉ name →
      DID.parse (str "did:" ++ (name ++ 58 :: id)) =
        if id = [] then none
        else if name = [] then none
        else if validate_method_name name then some ⟨name, id⟩
        else none) ∧
    (∀ rest : Bytes, 58 ∉ rest → DID.parse (str "did:" ++ rest) = none) ∧
    (∀ s : Bytes, stripDid s = none → DID.parse s = none) ∧
    DID.parse (str "did:abcdef:123456:u:alice") =
      some ⟨str "abcdef", str "123456:u:alice"⟩ := by
  refine ⟨?_, ?_, ?_, by decide⟩
  · intro name id hname
    simp only [DID.parse, stripDid_append, splitOnce_append hname]
    rcases Decidable.em (id = []) with hid | hid
    · simp [hid]
    · rcases Decidable.em (name = []) with hn | hn
      · simp [hid, hn]
      · simp [hid, hn]
  · intro rest hrest
    simp only [DID.parse, stripDid_append, splitOnce_of_not_mem hrest]
  · intro s hs
    simp only [DID.parse, hs]

/-- Witness for C7's amended theorem at concrete inputs. -/
theorem c7_did_parse_amended_witness :
    DID.parse (str "did:" ++ (str "abc" ++ 58 :: str "x:y")) = some ⟨str "abc", str "x:y"⟩ ∧
      DID.parse (str "did:" ++ str "abc") = none ∧
      DID.parse (str "frobnik") = none := by
  refine ⟨?_, ?_, ?_⟩
  · have h := c7_did_parse_amended.1 (str "abc") (str "x:y") (by decide)
    rw [h]; decide
  · have h := c7_did_parse_amended.2.1 (str "abc") (by decide)
    rw [h]
  · have h := c7_did_parse_amended.2.2.1 (str "frobnik") (by decide)
    rw [h]

/-- C6: the ordering `BTreeSet<VerificationMethod>` uses is the derived
whole-record `Ord`, not an id-only key — inserting two methods with equal
`id` but different `controller` leaves TWO set members, contradicting the
documented "uniqueness on the id" intent. -/
theorem c6_set_membership_not_id_only :
    (btreeInsertVM
        { id := ⟨⟨str "m", str "a"⟩, none⟩, controller := ⟨str "m", str "carol"⟩ }
        (btreeInsertVM
          { id := ⟨⟨str "m", str "a"⟩, none⟩, controller := ⟨str "m", str "bob"⟩ }
          [])).length = 2 ∧
      ({ id := ⟨⟨str "m", str "a"⟩, none⟩,
         controller := ⟨str "m", str "carol"⟩ } : VerificationMethod).id =
        ({ id := ⟨⟨str "m", str "a"⟩, none⟩,
           controller := ⟨str "m", str "bob"⟩ } : VerificationMethod).id := by decide

/-- Concrete fixtures used by the registry/document witnesses below. -/
def didA : DID := ⟨str "m", str "a"⟩

/-- A second fixture identifier. -/
def didB : DID := ⟨str "m", str "b"⟩

/-- A Locator naming a verification method of `didA`'s document. -/
def urlA : URL := ⟨didA, some { fragment := some (str "k") }⟩

/-- A Locator whose identifier is not stored in `regVM`. -/
def urlB : URL := ⟨didB, some { fragment := some (str "k") }⟩

/-- A verification method with id `urlA`. -/
def vmA : VerificationMethod := { id := urlA, controller := didA }

/-- A document owning `vmA`. -/
def docVM : Document := { id := didA, verification_method := some [vmA] }

/-- A one-document registry storing `docVM` under `didA`. -/
def regVM : Registry := ⟨[(didA, docVM)]⟩

/-- C5: `VerificationMethods::valid` returns `Ok` for the whole set as soon
as one Locator reference resolves (`return Ok(())` in the source), skipping
the remaining elements: here the second element alone fails with
`UnknownReferencedIdentifier`, yet the two-element set (in its iteration
order) validates. -/
theorem c5_early_ok_skips_rest :
    VerificationMethods.valid (some regVM) [.inr urlA, .inr urlB] = .ok () ∧
      VerificationMethods.valid (some regVM) [.inr urlB] =
        .error .unknownReferencedIdentifier := by decide

/-- C4, counterexample: `controls(x, x)` on a registry that does not store
`x` is an ERROR, not `Ok(true)` — the subject lookup happens before the
reflexive check. -/
theorem c4_reflexive_requires_subject :
    Registry.controls ⟨[]⟩ didA didA = .error (.unknownIdentifier didA) ∧
      Registry.controls ⟨[]⟩ didA didA ≠ .ok true := by decide

/-- The membership test `controls` performs on the subject document's
`controller` field (single identifier or set). -/
def controllerHas (d : Document) (c : DID) : Bool :=
  match d.controller with
  | none => false
  | some (.inl x) => x == c
  | some (.inr l) => l.contains c

/-- C4, amended: `controls(subject, controller)` first looks the subject up
(`UnknownIdentifier` when it is not stored, even in the reflexive case);
with the subject stored, `subject == controller` yields true; otherwise an
unknown controller is an `UnknownIdentifier` error (named after the
subject in the source's message), and with both stored the result is
membership of `controller` in the subject document's `controller` field. -/
theorem c4_controls_amended (reg : Registry) (s c : DID) :
    (reg.get s = none → reg.controls s c = .error (.unknownIdentifier s)) ∧
    (∀ d, reg.get s = some d → s = c → reg.controls s c = .ok true) ∧
    (∀ d, reg.get s = some d → s ≠ c → reg.get c = none →
      reg.controls s c = .error (.unknownIdentifier s)) ∧
    (∀ d dc, reg.get s = some d → s ≠ c → reg.get c = some dc →
      reg.controls s c = .ok (controllerHas d c)) := by
  refine ⟨?_, ?_, ?_, ?_⟩
  · intro h; simp [Registry.controls, h]
  · intro d hd hsc; subst hsc; simp [Registry.controls, hd]
  · intro d hd hsc hc; simp [Registry.controls, hd, hsc, hc]
  · intro d dc hd hsc hc
    simp only [Registry.controls, hd, hc]
    have hsc' : (s == c) = false := by simp [hsc]
    simp only [hsc', Bool.false_eq_true, if_false, Option.isSome_some, if_true]
    match hctl : d.controller with
    | none => simp [controllerHas, hctl]
    | some (.inl x) => simp [controllerHas, hctl]
    | some (.inr l) =>
      simp only [controllerHas, hctl]
      by_cases hl : c ∈ l <;> simp [hl]

/-- A document for `didA` naming `didB` as its controller. -/
def docACtl : Document := { id := didA, controller := some (.inl didB) }

/-- A bare document for `didB`. -/
def docB : Document := { id := didB }

/-- A two-document registry: `didA`'s document names `didB` as controller. -/
def regAB : Registry := ⟨[(didA, docACtl), (didB, docB)]⟩

/-- Witness for C4's amended theorem: in `regAB` the subject document names
the controller. -/
theorem c4_controls_amended_witness :
    Registry.controls regAB didA didB = .ok true := by
  have h := (c4_controls_amended regAB didA didB).2.2.2 docACtl docB
    (by decide) (by decide) (by decide)
  rw [h]; decide

/-- C8, counterexample: in `did:abcdef:123456?zz=1&aa=2&zz=3` the stored
entry for `zz` is the LAST occurrence's value (`3`, not `1`), and iteration
yields `aa` before `zz` (sorted key order, not insertion order). -/
theorem c8_extra_query_order :
    URL.parse (str "did:abcdef:123456?zz=1&aa=2&zz=3") =
      some ⟨⟨str "abcdef", str "123456"⟩,
        some { extra_query := some [(str "aa", str "2"), (str "zz", str "3")] }⟩ := by decide

/-- C1, counterexample: the Locator holding `extra_query = Some(empty map)`
formats to `did:abcdef:123456?`, which parses back with `extra_query`
holding the single entry `"" ↦ ""` — not the original value. -/
theorem c1_round_trip_fails :
    URL.toText ⟨⟨str "abcdef", str "123456"⟩, some { extra_query := some [] }⟩ =
      str "did:abcdef:123456?" ∧
    URL.parse (str "did:abcdef:123456?") =
      some ⟨⟨str "abcdef", str "123456"⟩, some { extra_query := some [([], [])] }⟩ ∧
    URL.parse (URL.toText ⟨⟨str "abcdef", str "123456"⟩, some { extra_query := some [] }⟩) ≠
      some ⟨⟨str "abcdef", str "123456"⟩, some { extra_query := some [] }⟩ := by decide

/-! ## C3: `equivalent_to_did` -/

/-- Entries of a document's `alsoKnownAs` set (`[]` when absent). -/
def akaEntries (d : Document) : List AlsoKnownAsEither := d.also_known_as.getD []

/-- Well-formed registries: every stored pair is keyed by its document's id,
as `Registry::insert` guarantees (it keys by `doc.id`). -/
def RegWF (reg : Registry) : Bool := reg.r.all fun p => p.1 == p.2.id

/-- Registries whose stored `alsoKnownAs` entries are all literal DIDs (a
`Url` entry would invoke the remote-fetch collaborator instead). -/
def AkaDIDOnly (reg : Registry) : Bool :=
  reg.r.all fun p => (akaEntries p.2).all fun e => e.isLeft

theorem regWF_key {reg : Registry} (h : RegWF reg = true) : ∀ p ∈ reg.r, p.1 = p.2.id := by
  intro p hp
  have := List.all_eq_true.mp h p hp
  simpa using this

theorem akaDIDOnly_entries {reg : Registry} (h : AkaDIDOnly reg = true) :
    ∀ p ∈ reg.r, ∀ e ∈ akaEntries p.2, e.isLeft = true := by
  intro p hp e he
  have := List.all_eq_true.mp (List.all_eq_true.mp h p hp) e he
  simpa using this

/-- The mutual also-known-as claim between two stored documents: some entry
of `da`'s set equals `b` and some entry of `db`'s set equals `a`. -/
def mutualAka (da db : Document) (a b : DID) : Bool :=
  (akaEntries da).any (· == Sum.inl b) && (akaEntries db).any (· == Sum.inl a)

theorem find?_key_mem {l : List (DID × Document)} {x : DID} {p0 : DID × Document}
    (h : l.find? (fun p => p.1 == x) = some p0) : p0 ∈ l ∧ p0.1 = x := by
  induction l with
  | nil => simp [List.find?] at h
  | cons q rest ih =>
    rw [List.find?] at h
    cases hq : (q.1 == x) with
    | true =>
      rw [hq] at h
      have hq0 : q = p0 := by simpa using h
      exact ⟨hq0 ▸ List.mem_cons_self q rest, hq0 ▸ (by simpa using hq)⟩
    | false =>
      rw [hq] at h
      obtain ⟨hm, he⟩ := ih h
      exact ⟨List.mem_cons_of_mem q hm, he⟩

theorem reg_get_id {reg : Registry} (hwf : ∀ p ∈ reg.r, p.1 = p.2.id) {x : DID} {d : Document}
    (h : reg.get x = some d) : d.id = x ∧ (x, d) ∈ reg.r := by
  unfold Registry.get at h
  match hf : reg.r.find? (fun p => p.1 == x) with
  | none => rw [hf] at h; simp at h
  | some p0 =>
    rw [hf] at h
    simp only [Option.map_some'] at h
    obtain ⟨hmem, h1⟩ := find?_key_mem hf
    have hid : p0.1 = p0.2.id := hwf p0 hmem
    have hd : p0.2 = d := by simpa using h
    refine ⟨by rw [← hd, ← hid, h1], ?_⟩
    have hp0 : p0 = (x, d) := by
      cases p0 with
      | mk k v => simp only [Prod.mk.injEq]; exact ⟨h1, by simpa using hd⟩
    rw [← hp0]; exact hmem

theorem inl_beq_inl (a b : DID) :
    ((Sum.inl a : AlsoKnownAsEither) == Sum.inl b) = (a == b) := rfl

theorem did_beq_false {a b : DID} (h : ¬a = b) : (a == b) = false := by
  cases hab : a == b
  · rfl
  · exact absurd (eq_of_beq hab) h

theorem compareAkaLoop_spec (did t : DID) (db : Document)
    (l : List AlsoKnownAsEither) (hl : ∀ e ∈ l, e.isLeft = true) :
    compareAkaLoop did t db l = .ok ((t == db.id) && l.any (· == Sum.inl did)) := by
  induction l with
  | nil => simp [compareAkaLoop]
  | cons e rest ih =>
    have hrest : ∀ x ∈ rest, x.isLeft = true := fun x hx => hl x (List.mem_cons_of_mem e hx)
    cases e with
    | inr u => exact absurd (hl (Sum.inr u) (List.mem_cons_self _ _)) (by simp)
    | inl d0 =>
      rw [compareAkaLoop]
      by_cases h1 : d0 = did
      · subst h1
        by_cases h2 : t = db.id
        · subst h2; simp [inl_beq_inl]
        · have h2' : (t == db.id) = false := did_beq_false h2
          simp [h2', ih hrest]
      · have h1' : (d0 == did) = false := did_beq_false h1
        simp [inl_beq_inl, h1', ih hrest]

theorem compare_aka_spec (reg : Registry) (did t : DID) (db : Document)
    (hdb : ∀ e ∈ akaEntries db, e.isLeft = true) :
    reg.compare_aka did t db =
      .ok ((t == db.id) && (akaEntries db).any (· == Sum.inl did)) := by
  unfold Registry.compare_aka
  match h : db.also_known_as with
  | none => simp [akaEntries, h]
  | some l =>
    have hl : ∀ e ∈ l, e.isLeft = true := by
      intro e he; exact hdb e (by simp [akaEntries, h, he])
    simp only [akaEntries, h, Option.getD_some]
    exact compareAkaLoop_spec did t db l hl

theorem equivalentLoop_spec (reg : Registry) (did : DID) (db : Document)
    (l : List AlsoKnownAsEither)
    (hdb : ∀ e ∈ akaEntries db, e.isLeft = true)
    (hl : ∀ e ∈ l, e.isLeft = true) :
    equivalentLoop reg did db l =
      .ok (l.any (· == Sum.inl db.id) && (akaEntries db).any (· == Sum.inl did)) := by
  induction l with
  | nil => simp [equivalentLoop]
  | cons e rest ih =>
    have hrest : ∀ x ∈ rest, x.isLeft = true := fun x hx => hl x (List.mem_cons_of_mem e hx)
    cases e with
    | inr u => exact absurd (hl (Sum.inr u) (List.mem_cons_self _ _)) (by simp)
    | inl t =>
      rw [equivalentLoop, compare_aka_spec reg did t db hdb]
      by_cases h1 : t = db.id
      · subst h1
        cases h2 : (akaEntries db).any (· == Sum.inl did) <;>
          simp [h2, ih hrest, inl_beq_inl]
      · have h1' : (t == db.id) = false := did_beq_false h1
        simp [h1', inl_beq_inl, ih hrest]

/-- C3: `equivalent_to_did(a, b)` on a well-formed registry whose stored
also-known-as entries are literal identifiers: a missing `a` is an
`UnknownIdentifier` error naming `a`; with `a` stored, a missing `b` is an
`UnknownIdentifier` error naming `b`; with both stored the result is `Ok`
of the mutual-claim boolean — true exactly when some entry of `a`'s set
equals `b` AND some entry of `b`'s set equals `a`, so a one-sided claim is
the value `false`, not an error. -/
theorem c3_equivalent_to_spec (reg : Registry) (a b : DID)
    (hwf : RegWF reg = true) (hdid : AkaDIDOnly reg = true) :
    (reg.get a = none → reg.equivalent_to_did a b = .error (.unknownIdentifier a)) ∧
    (∀ da, reg.get a = some da → reg.get b = none →
      reg.equivalent_to_did a b = .error (.unknownIdentifier b)) ∧
    (∀ da db, reg.get a = some da → reg.get b = some db →
      reg.equivalent_to_did a b = .ok (mutualAka da db a b)) := by
  refine ⟨?_, ?_, ?_⟩
  · intro h; simp [Registry.equivalent_to_did, h]
  · intro da ha hb; simp [Registry.equivalent_to_did, ha, hb]
  · intro da db ha hb
    obtain ⟨hdbid, hdbmem⟩ := reg_get_id (regWF_key hwf) hb
    obtain ⟨hdaid, hdamem⟩ := reg_get_id (regWF_key hwf) ha
    have hdbaka : ∀ e ∈ akaEntries db, e.isLeft = true :=
      akaDIDOnly_entries hdid (b, db) hdbmem
    have hdaaka : ∀ e ∈ akaEntries da, e.isLeft = true :=
      akaDIDOnly_entries hdid (a, da) hdamem
    simp only [Registry.equivalent_to_did, ha, hb]
    match haka : da.also_known_as with
    | none =>
      change Except.ok false = _
      simp [mutualAka, akaEntries, haka]
    | some l =>
      have hla : ∀ e ∈ l, e.isLeft = true := by
        intro e he; exact hdaaka e (by simp [akaEntries, haka, he])
      change equivalentLoop reg a db l = _
      rw [equivalentLoop_spec reg a db l hdbaka hla, hdbid]
      simp [mutualAka, akaEntries, haka]

/-- A document for `didA` claiming `didB` as also-known-as. -/
def docAkaA : Document := { id := didA, also_known_as := some [Sum.inl didB] }

/-- A document for `didB` claiming `didA` back. -/
def docAkaB : Document := { id := didB, also_known_as := some [Sum.inl didA] }

/-- A registry with the two mutually-claiming documents. -/
def regAka : Registry := ⟨[(didA, docAkaA), (didB, docAkaB)]⟩

/-- Witness for C3 on `regAka`: the mutual claim resolves to `Ok(true)`. -/
theorem c3_equivalent_to_spec_witness :
    Registry.equivalent_to_did regAka didA didB = .ok true := by
  have h := (c3_equivalent_to_spec regAka didA didB (by decide) (by decide)).2.2
    docAkaA docAkaB (by decide) (by decide)
  rw [h]; decide

/-! ## C8: `extra_query` semantics -/

/-- Sortedness of the association-list model of `BTreeMap`: strictly
ascending keys — also its iteration order. -/
def mapSorted : List (Bytes × Bytes) → Bool
  | [] => true
  | [_] => true
  | a :: b :: rest => bytesLt a.1 b.1 && mapSorted (b :: rest)

/-- Lookup in the association-list model of `BTreeMap`. -/
def mapLookup (k : Bytes) : List (Bytes × Bytes) → Option Bytes
  | [] => none
  | (k', v) :: rest => if k == k' then some v else mapLookup k rest

theorem beq_false_of_ne {α : Type} [BEq α] [LawfulBEq α] {a b : α} (h : ¬a = b) :
    (a == b) = false := by
  cases hab : a == b
  · rfl
  · exact absurd (eq_of_beq hab) h

theorem bytesLt_total (a b : Bytes) : bytesLt a b = true ∨ a = b ∨ bytesLt b a = true := by
  induction a generalizing b with
  | nil =>
    cases b with
    | nil => exact Or.inr (Or.inl rfl)
    | cons y ys => exact Or.inl rfl
  | cons x xs ih =>
    cases b with
    | nil => exact Or.inr (Or.inr rfl)
    | cons y ys =>
      rcases Nat.lt_trichotomy x y with h | h | h
      · left; simp [bytesLt, h]
      · subst h
        rcases ih ys with h' | h' | h'
        · left; simp [bytesLt, h']
        · right; left; rw [h']
        · right; right; simp [bytesLt, h']
      · right; right; simp [bytesLt, h]

theorem bytesLt_of_not {k k' : Bytes} (h1 : bytesLt k k' = false) (h2 : ¬k = k') :
    bytesLt k' k = true := by
  rcases bytesLt_total k k' with h | h | h
  · rw [h] at h1; cases h1
  · exact absurd h h2
  · exact h

theorem mapSorted_head_lt {p : Bytes × Bytes} {l : List (Bytes × Bytes)}
    (hs : mapSorted (p :: l) = true) :
    mapSorted l = true ∧ ∀ q, l.head? = some q → bytesLt p.1 q.1 = true := by
  cases l with
  | nil => exact ⟨rfl, by intro q hq; cases hq⟩
  | cons q t =>
    have h := hs
    rw [mapSorted, Bool.and_eq_true] at h
    refine ⟨h.2, ?_⟩
    intro q' hq'
    have : q' = q := by simpa using hq'.symm
    rw [this]; exact h.1

theorem mapSorted_cons_of {p : Bytes × Bytes} {l : List (Bytes × Bytes)}
    (hl : mapSorted l = true)
    (hhead : ∀ q, l.head? = some q → bytesLt p.1 q.1 = true) :
    mapSorted (p :: l) = true := by
  cases l with
  | nil => rfl
  | cons q t =>
    rw [mapSorted, Bool.and_eq_true]
    exact ⟨hhead q rfl, hl⟩

theorem mapInsert_head_cases (k v : Bytes) (m : List (Bytes × Bytes)) :
    (mapInsert k v m).head?.map Prod.fst = some k ∨
    (mapInsert k v m).head?.map Prod.fst = m.head?.map Prod.fst := by
  cases m with
  | nil => left; rfl
  | cons p rest =>
    rw [mapInsert]
    by_cases h1 : bytesLt k p.1 = true
    · rw [if_pos h1]; left; rfl
    · rw [if_neg h1]
      by_cases h2 : (k == p.1) = true
      · rw [if_pos h2]; left; rfl
      · rw [if_neg h2]; right; rfl

theorem mapSorted_insert (k v : Bytes) :
    ∀ m, mapSorted m = true → mapSorted (mapInsert k v m) = true := by
  intro m
  induction m with
  | nil => intro _; rfl
  | cons p rest ih =>
    intro hs
    obtain ⟨hrest, hph⟩ := mapSorted_head_lt hs
    rw [mapInsert]
    by_cases h1 : bytesLt k p.1 = true
    · rw [if_pos h1]
      exact mapSorted_cons_of hs (by intro q hq
                                     have : q = p := by simpa using hq.symm
                                     rw [this]; exact h1)
    · rw [if_neg h1]
      by_cases h2 : (k == p.1) = true
      · rw [if_pos h2]
        have hkp : k = p.1 := eq_of_beq h2
        refine mapSorted_cons_of hrest ?_
        intro q hq
        rw [hkp]; exact hph q hq
      · rw [if_neg h2]
        have hkp : ¬k = p.1 := fun h => h2 (by rw [h]; exact beq_self_eq_true _)
        have hlt : bytesLt p.1 k = true :=
          bytesLt_of_not (by simpa using h1) hkp
        refine mapSorted_cons_of (ih hrest) ?_
        intro q hq
        rcases mapInsert_head_cases k v rest with hh | hh
        · rw [hq] at hh
          have : q.1 = k := by simpa using hh
          rw [this]; exact hlt
        · rw [hq] at hh
          cases hr : rest.head? with
          | none => rw [hr] at hh; simp at hh
          | some q0 =>
            rw [hr] at hh
            have : q.1 = q0.1 := by simpa using hh
            rw [this]; exact hph q0 hr

theorem mapLookup_insert_self (k v : Bytes) :
    ∀ m, mapLookup k (mapInsert k v m) = some v := by
  intro m
  induction m with
  | nil => simp [mapInsert, mapLookup]
  | cons p rest ih =>
    rw [mapInsert]
    by_cases h1 : bytesLt k p.1 = true
    · rw [if_pos h1, mapLookup]; simp
    · rw [if_neg h1]
      by_cases h2 : (k == p.1) = true
      · rw [if_pos h2, mapLookup]; simp
      · rw [if_neg h2, mapLookup, if_neg (by simp_all), ih]

theorem mapLookup_insert_ne (k v k' : Bytes) (h : ¬k' = k) :
    ∀ m, mapLookup k' (mapInsert k v m) = mapLookup k' m := by
  have hk : (k' == k) = false := beq_false_of_ne h
  intro m
  induction m with
  | nil => simp [mapInsert, mapLookup, hk]
  | cons p rest ih =>
    rw [mapInsert]
    by_cases h1 : bytesLt k p.1 = true
    · rw [if_pos h1, mapLookup, hk]; simp
    · rw [if_neg h1]
      by_cases h2 : (k == p.1) = true
      · rw [if_pos h2, mapLookup, hk]
        have hkp : k = p.1 := eq_of_beq h2
        rw [mapLookup, ← hkp, hk]
        simp
      · rw [if_neg h2, mapLookup, mapLookup]
        by_cases h3 : (k' == p.1) = true
        · rw [h3]; simp
        · rw [if_neg h3, if_neg h3, ih]

/-- C8, amended: a query key that is none of the five reserved names is
percent-decoded together with its value and inserted into the `extra_query`
accumulator (a `BTreeMap` modelled as a key-sorted association list);
inserting preserves the ascending-key iteration order, the inserted key's
stored value is the newly inserted one (so on a repeated key the LAST
occurrence wins), and other keys are untouched. -/
theorem c8_extra_query_amended :
    (∀ (u : URL) (l r : Bytes) (acc : List (Bytes × Bytes)),
      l ∉ [str "service", str "relativeRef", str "versionId", str "versionTime", str "hl"] →
      URL.match_fixed_query_params u l r acc =
        some ({ u with parameters := some (u.parameters.getD {}) },
          mapInsert (url_decoded l) (url_decoded r) acc)) ∧
    (∀ k v m, mapSorted m = true → mapSorted (mapInsert k v m) = true) ∧
    (∀ k v m, mapLookup k (mapInsert k v m) = some v) ∧
    (∀ k v k' m, ¬k' = k → mapLookup k' (mapInsert k v m) = mapLookup k' m) := by
  refine ⟨?_, mapSorted_insert, mapLookup_insert_self,
    fun k v k' m h => mapLookup_insert_ne k v k' h m⟩
  intro u l r acc hl
  have h1 : (l == str "service") = false :=
    beq_false_of_ne (by intro h; exact hl (by rw [h]; simp))
  have h2 : (l == str "relativeRef") = false :=
    beq_false_of_ne (by intro h; exact hl (by rw [h]; simp))
  have h3 : (l == str "versionId") = false :=
    beq_false_of_ne (by intro h; exact hl (by rw [h]; simp))
  have h4 : (l == str "versionTime") = false :=
    beq_false_of_ne (by intro h; exact hl (by rw [h]; simp))
  have h5 : (l == str "hl") = false :=
    beq_false_of_ne (by intro h; exact hl (by rw [h]; simp))
  rw [URL.match_fixed_query_params]
  simp only [h1, h2, h3, h4, h5, Bool.false_eq_true, if_false]

/-- Witness for C8's amended theorem at concrete inputs. -/
theorem c8_extra_query_amended_witness :
    URL.match_fixed_query_params ⟨didA, none⟩ (str "a%20b") (str "1")
        [(str "zz", str "0")] =
      some (⟨didA, some {}⟩, [(str "a b", str "1"), (str "zz", str "0")]) ∧
    mapSorted (mapInsert (str "k") (str "2") [(str "a", str "1")]) = true ∧
    mapLookup (str "k") (mapInsert (str "k") (str "2") [(str "k", str "1")]) =
      some (str "2") := by
  refine ⟨?_, ?_, ?_⟩
  · have h := c8_extra_query_amended.1 ⟨didA, none⟩ (str "a%20b") (str "1")
      [(str "zz", str "0")] (by decide)
    rw [h]; decide
  · have h := c8_extra_query_amended.2.1 (str "k") (str "2") [(str "a", str "1")]
      (by decide)
    rw [h]
  · have h := c8_extra_query_amended.2.2.1 (str "k") (str "2") [(str "k", str "1")]
    rw [h]

/-! ## C1: the round-trip class — character facts about encoded output -/

/-- Characters that can occur in percent-encoded output: safe bytes, `%`,
and (for the method-id variant) `:`. -/
def encCharOk (esc : Bool) (x : Nat) : Bool :=
  isSafeByte x || x == 37 || (!esc && x == 58)

theorem enc_chars_byte : ∀ (esc : Bool), ∀ c < 256,
    ∀ x ∈ url_encoded_internal [c] esc, encCharOk esc x = true := by decide

theorem url_encoded_internal_cons (esc : Bool) (c : Nat) (rest : Bytes) :
    url_encoded_internal (c :: rest) esc =
      url_encoded_internal [c] esc ++ url_encoded_internal rest esc := by
  simp [url_encoded_internal]

theorem enc_chars (esc : Bool) (b : Bytes) (hb : ∀ c ∈ b, c < 256) :
    ∀ x ∈ url_encoded_internal b esc, encCharOk esc x = true := by
  induction b with
  | nil => intro x hx; cases hx
  | cons c rest ih =>
    intro x hx
    rw [url_encoded_internal_cons, List.mem_append] at hx
    rcases hx with hx | hx
    · exact enc_chars_byte esc c (hb c (by simp)) x hx
    · exact ih (fun y hy => hb y (by simp [hy])) x hx

theorem encCharOk_ranges {esc : Bool} {x : Nat} (h : encCharOk esc x = true) :
    (48 ≤ x ∧ x ≤ 57) ∨ (65 ≤ x ∧ x ≤ 90) ∨ (97 ≤ x ∧ x ≤ 122) ∨
      x = 46 ∨ x = 45 ∨ x = 95 ∨ x = 37 ∨ x = 58 := by
  cases esc <;> simp [encCharOk, isSafeByte] at h <;> omega

/-- Encoded output never contains the delimiters `/ ? # & =`. -/
theorem enc_no_delim {esc : Bool} {b : Bytes} (hb : ∀ c ∈ b, c < 256) {x : Nat}
    (hx : x ∈ url_encoded_internal b esc) : x ≠ 47 ∧ x ≠ 63 ∧ x ≠ 35 ∧ x ≠ 38 ∧ x ≠ 61 := by
  have h := encCharOk_ranges (enc_chars esc b hb x hx)
  omega

/-- The colon-escaping variant also never contains `:`. -/
theorem enc_no_colon {b : Bytes} (hb : ∀ c ∈ b, c < 256) {x : Nat}
    (hx : x ∈ url_encoded_internal b true) : x ≠ 58 := by
  have h := enc_chars true b hb x hx
  simp [encCharOk, isSafeByte] at h
  omega

theorem name_chars {b : Bytes} (h : validate_method_name b = true) :
    ∀ c ∈ b, (97 ≤ c ∧ c ≤ 122) ∨ (48 ≤ c ∧ c ≤ 57) := by
  intro c hc
  have h2 := List.all_eq_true.mp h c hc
  revert h2
  simp

/-- A valid method name encodes to itself (all bytes are safe). -/
theorem enc_name_id {b : Bytes} (h : validate_method_name b = true) : url_encoded b = b := by
  induction b with
  | nil => rfl
  | cons c rest ih =>
    have hc := name_chars h c (by simp)
    have hrest : validate_method_name rest = true := by
      rw [validate_method_name] at h ⊢
      exact List.all_eq_true.mpr fun x hx =>
        List.all_eq_true.mp h x (List.mem_cons_of_mem c hx)
    have hsafe : isSafeByte c = true := by simp [isSafeByte]; omega
    rw [url_encoded, url_encoded_internal, hsafe]
    simp only [if_true]
    rw [url_encoded] at ih
    rw [ih hrest]; rfl

/-- Decoding a percent-free byte string is the identity. -/
theorem decRun_no_pct (b : Bytes) (h : 37 ∉ b) :
    decRun decInit b = b ∧ decFinal decInit b = decInit := by
  induction b with
  | nil => exact ⟨rfl, rfl⟩
  | cons c rest ih =>
    have hc : c ≠ 37 := fun hc => h (hc ▸ List.mem_cons_self c rest)
    have hrest := ih fun hm => h (List.mem_cons_of_mem c hm)
    have hstep : decStep decInit c = (decInit, [c]) := by
      rw [decStep]
      have : (c == 37) = false := by simp [hc]
      rw [this]
      simp only [Bool.false_eq_true, if_false]
      by_cases hh : isHexByte c = true
      · rw [hh]; simp [decInit]
      · have : isHexByte c = false := by simpa using hh
        rw [this]; simp
    constructor
    · rw [decRun, hstep]; simpa using hrest.1
    · rw [decFinal, hstep]; exact hrest.2

theorem url_decoded_no_pct {b : Bytes} (h : 37 ∉ b) : url_decoded b = b :=
  (decRun_no_pct b h).1

theorem name_no_pct {b : Bytes} (h : validate_method_name b = true) : 37 ∉ b := by
  intro hm
  have := name_chars h 37 hm
  omega

theorem name_no_colon {b : Bytes} (h : validate_method_name b = true) : 58 ∉ b := by
  intro hm
  have := name_chars h 58 hm
  omega

/-! ## C1: `before` and splitting over concatenations -/

theorem before_not_mem {s : Bytes} {l r : Nat} (h : l ∉ s) : before s l r = false := by
  induction s with
  | nil => rfl
  | cons c rest ih =>
    have hc : c ≠ l := fun hc => h (hc ▸ List.mem_cons_self c rest)
    rw [before]
    have hc' : (c == l) = false := by simp [hc]
    rw [hc']
    simp only [Bool.false_eq_true, if_false]
    by_cases hr : (c == r) = true
    · rw [hr]; simp
    · have : (c == r) = false := by simpa using hr
      rw [this]
      simp only [Bool.false_eq_true, if_false]
      exact ih fun hm => h (List.mem_cons_of_mem c hm)

theorem before_append {a s : Bytes} {l r : Nat} (hla : l ∉ a) (hra : r ∉ a) :
    before (a ++ s) l r = before s l r := by
  induction a with
  | nil => rfl
  | cons c rest ih =>
    have hcl : c ≠ l := fun hc => hla (hc ▸ List.mem_cons_self c rest)
    have hcr : c ≠ r := fun hc => hra (hc ▸ List.mem_cons_self c rest)
    rw [List.cons_append, before]
    have h1 : (c == l) = false := by simp [hcl]
    have h2 : (c == r) = false := by simp [hcr]
    rw [h1, h2]
    simp only [Bool.false_eq_true, if_false]
    exact ih (fun hm => hla (List.mem_cons_of_mem c hm))
      (fun hm => hra (List.mem_cons_of_mem c hm))

theorem before_cons_left (s : Bytes) (l r : Nat) : before (l :: s) l r = true := by
  rw [before]; simp

theorem before_cons_right {l r : Nat} (s : Bytes) (h : r ≠ l) :
    before (r :: s) l r = false := by
  rw [before]
  have h1 : (r == l) = false := by simp [h]
  rw [h1]
  simp

/-! ## C1: rebuilding a sorted map by inserting in ascending order -/

theorem bytesLt_irrefl (a : Bytes) : bytesLt a a = false := by
  induction a with
  | nil => rfl
  | cons x xs ih => simp [bytesLt, ih]

theorem bytesLt_trans : ∀ {a b c : Bytes},
    bytesLt a b = true → bytesLt b c = true → bytesLt a c = true := by
  intro a
  induction a with
  | nil =>
    intro b c hab hbc
    cases b with
    | nil => cases hab
    | cons y ys =>
      cases c with
      | nil => cases hbc
      | cons z zs => rfl
  | cons x xs ih =>
    intro b c hab hbc
    cases b with
    | nil => cases hab
    | cons y ys =>
      cases c with
      | nil => cases hbc
      | cons z zs =>
        rw [bytesLt] at hab hbc ⊢
        by_cases hxy : x < y
        · by_cases hyz : y < z
          · have : x < z := Nat.lt_trans hxy hyz
            simp [this]
          · rw [if_neg hyz] at hbc
            by_cases hzy : z < y
            · rw [if_pos hzy] at hbc; cases hbc
            · have hyz' : y = z := by omega
              subst hyz'
              simp [hxy]
        · rw [if_neg hxy] at hab
          by_cases hyx : y < x
          · rw [if_pos hyx] at hab; cases hab
          · have hxy' : x = y := by omega
            subst hxy'
            by_cases hyz : x < z
            · simp [hyz]
            · rw [if_neg hyz] at hbc ⊢
              by_cases hzy : z < x
              · rw [if_pos hzy] at hbc; cases hbc
              · rw [if_neg hzy] at hbc ⊢
                rw [if_neg hxy] at hab
                exact ih hab hbc

theorem bytesLt_asymm {a b : Bytes} (h : bytesLt a b = true) : bytesLt b a = false := by
  cases hba : bytesLt b a
  · rfl
  · have := bytesLt_trans h hba
    rw [bytesLt_irrefl] at this
    cases this

theorem mapSorted_head_all {p : Bytes × Bytes} {l : List (Bytes × Bytes)}
    (hs : mapSorted (p :: l) = true) : ∀ q ∈ l, bytesLt p.1 q.1 = true := by
  induction l generalizing p with
  | nil => intro q hq; cases hq
  | cons q t ih =>
    obtain ⟨ht, hh⟩ := mapSorted_head_lt hs
    intro q' hq'
    rcases List.mem_cons.mp hq' with hq' | hq'
    · rw [hq']; exact hh q rfl
    · exact bytesLt_trans (hh q rfl) (ih ht q' hq')

theorem mapInsert_append {k v : Bytes} :
    ∀ {acc : List (Bytes × Bytes)}, (∀ q ∈ acc, bytesLt q.1 k = true) →
      mapInsert k v acc = acc ++ [(k, v)] := by
  intro acc
  induction acc with
  | nil => intro _; rfl
  | cons p rest ih =>
    intro h
    have hp : bytesLt p.1 k = true := h p (List.mem_cons_self p rest)
    have h1 : bytesLt k p.1 = false := bytesLt_asymm hp
    have h2 : (k == p.1) = false := by
      apply beq_false_of_ne
      intro hk
      rw [hk, bytesLt_irrefl] at hp
      cases hp
    rw [mapInsert, h1]
    simp only [Bool.false_eq_true, if_false, h2]
    rw [ih fun q hq => h q (List.mem_cons_of_mem p hq)]
    rfl

/-- Folding `mapInsert` over the pairs of an already-sorted map, in order,
starting from a prefix strictly below all of them, appends them. -/
theorem foldInsert_sorted :
    ∀ (m acc : List (Bytes × Bytes)), mapSorted (acc ++ m) = true →
      m.foldl (fun a kv => mapInsert kv.1 kv.2 a) acc = acc ++ m := by
  intro m
  induction m with
  | nil => intro acc _; rw [List.foldl_nil, List.append_nil]
  | cons kv rest ih =>
    intro acc hs
    have hacc : ∀ q ∈ acc, bytesLt q.1 kv.1 = true := by
      intro q hq
      induction acc with
      | nil => cases hq
      | cons p t ihq =>
        rcases List.mem_cons.mp hq with hq' | hq'
        · rw [hq']
          exact mapSorted_head_all hs (kv) (by simp)
        · exact ihq ((mapSorted_head_lt hs).1) hq'
    rw [List.foldl_cons, mapInsert_append hacc]
    have : acc ++ [kv] ++ rest = acc ++ kv :: rest := by simp
    rw [← this] at hs
    rw [ih (acc ++ [kv]) hs]
    simp

/-! ## C1: the `&`-join of query parts and its split -/

/-- The text `key=value` of one query pair. -/
def partText (kv : Bytes × Bytes) : Bytes := kv.1 ++ 61 :: kv.2

/-- The `&`-join of the query pairs. -/
def joinParts : List (Bytes × Bytes) → Bytes
  | [] => []
  | [kv] => partText kv
  | kv :: rest => partText kv ++ 38 :: joinParts rest

/-- The flat text with a trailing `&` after every part, as `Display` emits. -/
def partsText (l : List (Bytes × Bytes)) : Bytes :=
  (l.map fun kv => kv.1 ++ 61 :: kv.2 ++ [38]).flatten

theorem partsText_append (a b : List (Bytes × Bytes)) :
    partsText (a ++ b) = partsText a ++ partsText b := by
  simp [partsText]

theorem joinParts_cons2 (kv kv2 : Bytes × Bytes) (t : List (Bytes × Bytes)) :
    joinParts (kv :: kv2 :: t) = partText kv ++ 38 :: joinParts (kv2 :: t) := rfl

theorem partsText_eq_joinParts (l : List (Bytes × Bytes)) (hl : l ≠ []) :
    partsText l = joinParts l ++ [38] := by
  induction l with
  | nil => cases hl rfl
  | cons kv rest ih =>
    cases rest with
    | nil => simp [partsText, joinParts, partText]
    | cons kv2 t =>
      rw [joinParts_cons2, partsText, List.map_cons, List.flatten_cons]
      have h2 : (List.map (fun kv => kv.1 ++ 61 :: kv.2 ++ [38]) (kv2 :: t)).flatten =
          partsText (kv2 :: t) := rfl
      rw [h2, ih (by simp), partText]
      simp

theorem stripAmp_concat (x : Bytes) : stripAmpSuffix (x ++ [38]) = x := by
  rw [stripAmpSuffix]
  simp

theorem splitAmpAux_no_amp (a : Bytes) (ha : 38 ∉ a) :
    ∀ acc, splitAmpAux acc a = [acc.reverse ++ a] := by
  induction a with
  | nil => intro acc; simp [splitAmpAux]
  | cons c rest ih =>
    intro acc
    have hc : c ≠ 38 := fun h => ha (h ▸ List.mem_cons_self c rest)
    have hc' : (c == 38) = false := by simp [hc]
    rw [splitAmpAux, hc']
    simp only [Bool.false_eq_true, if_false]
    rw [ih (fun h => ha (List.mem_cons_of_mem c h)) (c :: acc)]
    simp

theorem splitAmpAux_amp (a b : Bytes) (ha : 38 ∉ a) :
    ∀ acc, splitAmpAux acc (a ++ 38 :: b) = (acc.reverse ++ a) :: splitAmpAux [] b := by
  induction a with
  | nil => intro acc; simp [splitAmpAux]
  | cons c rest ih =>
    intro acc
    have hc : c ≠ 38 := fun h => ha (h ▸ List.mem_cons_self c rest)
    have hc' : (c == 38) = false := by simp [hc]
    rw [List.cons_append, splitAmpAux, hc']
    simp only [Bool.false_eq_true, if_false]
    rw [ih (fun h => ha (List.mem_cons_of_mem c h)) (c :: acc)]
    simp

theorem splitAmp_joinParts (l : List (Bytes × Bytes)) (hl : l ≠ [])
    (hno : ∀ kv ∈ l, 38 ∉ partText kv) :
    splitAmp (joinParts l) = l.map partText := by
  induction l with
  | nil => cases hl rfl
  | cons kv rest ih =>
    cases rest with
    | nil =>
      rw [joinParts, splitAmp, splitAmpAux_no_amp _ (hno kv (by simp)) []]
      simp
    | cons kv2 t =>
      rw [joinParts_cons2, splitAmp,
        splitAmpAux_amp _ _ (hno kv (by simp)) []]
      have := ih (by simp) (fun x hx => hno x (List.mem_cons_of_mem kv hx))
      rw [splitAmp] at this
      rw [this]
      simp

/-! ## C1: processing the canonical query parts -/

/-- All bytes are bytes (`< 256`). -/
def bytesOk (s : Bytes) : Bool := s.all fun c => c < 256

/-- ASCII text free of `&` and `#` — safe for the raw string fields
(`service`, `versionId`, `hl`). -/
def safeText (s : Bytes) : Bool := s.all fun c => c < 128 && c != 38 && c != 35

/-- The five reserved query keys. -/
def reservedKeys : List Bytes :=
  [str "service", str "relativeRef", str "versionId", str "versionTime", str "hl"]

theorem bytesOk_mem {s : Bytes} (h : bytesOk s = true) : ∀ c ∈ s, c < 256 := by
  intro c hc
  have := List.all_eq_true.mp h c hc
  simpa using this

theorem safeText_mem {s : Bytes} (h : safeText s = true) :
    ∀ c ∈ s, c < 128 ∧ c ≠ 38 ∧ c ≠ 35 := by
  intro c hc
  have h2 := List.all_eq_true.mp h c hc
  revert h2
  simp
  omega

theorem safeText_bytesOk {s : Bytes} (h : safeText s = true) : ∀ c ∈ s, c < 256 :=
  fun c hc => Nat.lt_of_lt_of_le (safeText_mem h c hc).1 (by omega)

/-- Encoding a byte string cannot produce a reserved key unless the input
was that reserved key. -/
theorem enc_beq_reserved_false {k w : Bytes} (hk : ∀ c ∈ k, c < 256)
    (hw : url_decoded w = w) (hne : k ≠ w) : (url_encoded k == w) = false := by
  apply beq_false_of_ne
  intro he
  apply hne
  have hdec : url_decoded (url_encoded k) = k := decode_encode true k hk
  rw [he, hw] at hdec
  exact hdec.symm

theorem dec_reserved :
    url_decoded (str "service") = str "service" ∧
    url_decoded (str "relativeRef") = str "relativeRef" ∧
    url_decoded (str "versionId") = str "versionId" ∧
    url_decoded (str "versionTime") = str "versionTime" ∧
    url_decoded (str "hl") = str "hl" := by decide

/-- The `let params` binding of `match_fixed_query_params`. -/
def getParams (u : URL) : URLParameters := u.parameters.getD {}

theorem decode_url_encoded {b : Bytes} (hb : ∀ c ∈ b, c < 256) :
    url_decoded (url_encoded b) = b := decode_encode true b hb

theorem decode_mid_encoded {b : Bytes} (hb : ∀ c ∈ b, c < 256) :
    url_decoded (method_id_encoded b) = b := decode_encode false b hb

theorem mfqp_service (u : URL) (s : Bytes) (acc : List (Bytes × Bytes)) :
    URL.match_fixed_query_params u (str "service") s acc =
      some ({ u with parameters := some { getParams u with service := some s } }, acc) := rfl

theorem mfqp_relref (u : URL) (s : Bytes) (acc : List (Bytes × Bytes)) :
    URL.match_fixed_query_params u (str "relativeRef") s acc =
      some ({ u with parameters := some { getParams u with relative_ref := some (url_decoded s) } }, acc) := rfl

theorem mfqp_verid (u : URL) (s : Bytes) (acc : List (Bytes × Bytes)) :
    URL.match_fixed_query_params u (str "versionId") s acc =
      some ({ u with parameters := some { getParams u with version_id := some s } }, acc) := rfl

theorem mfqp_hl (u : URL) (s : Bytes) (acc : List (Bytes × Bytes)) :
    URL.match_fixed_query_params u (str "hl") s acc =
      some ({ u with parameters := some { getParams u with hash_link := some s } }, acc) := rfl

theorem mfqp_extra (u : URL) (l r : Bytes) (acc : List (Bytes × Bytes))
    (h1 : (l == str "service") = false) (h2 : (l == str "relativeRef") = false)
    (h3 : (l == str "versionId") = false) (h4 : (l == str "versionTime") = false)
    (h5 : (l == str "hl") = false) :
    URL.match_fixed_query_params u l r acc =
      some ({ u with parameters := some (getParams u) },
        mapInsert (url_decoded l) (url_decoded r) acc) := by
  rw [URL.match_fixed_query_params]
  simp only [h1, h2, h3, h4, h5, Bool.false_eq_true, if_false]
  rfl

/-- One processing step: a `service=`-keyed part sets the `service` field. -/
theorem step_service (d : DID) (P : URLParameters) (s : Bytes)
    (rest : List Bytes) (acc : List (Bytes × Bytes)) :
    URL.parse_query_parts ⟨d, some P⟩ acc (partText (str "service", s) :: rest) =
      URL.parse_query_parts ⟨d, some { P with service := some s }⟩ acc rest := by
  have hpt : partText (str "service", s) = str "service" ++ 61 :: s := rfl
  rw [URL.parse_query_parts, hpt,
    splitOnce_append (show (61 : Nat) ∉ str "service" by decide) s]
  simp only [mfqp_service]
  rfl

/-- One processing step: a `relativeRef=`-keyed part sets `relative_ref`,
percent-decoded. -/
theorem step_relative_ref (d : DID) (P : URLParameters) (r : Bytes)
    (hr : ∀ c ∈ r, c < 256) (rest : List Bytes) (acc : List (Bytes × Bytes)) :
    URL.parse_query_parts ⟨d, some P⟩ acc
        (partText (str "relativeRef", url_encoded r) :: rest) =
      URL.parse_query_parts ⟨d, some { P with relative_ref := some r }⟩ acc rest := by
  have hpt : partText (str "relativeRef", url_encoded r) =
      str "relativeRef" ++ 61 :: url_encoded r := rfl
  rw [URL.parse_query_parts, hpt,
    splitOnce_append (show (61 : Nat) ∉ str "relativeRef" by decide) (url_encoded r)]
  simp only [mfqp_relref, decode_url_encoded hr]
  rfl

/-- One processing step: a `versionId=`-keyed part sets `version_id`. -/
theorem step_version_id (d : DID) (P : URLParameters) (v : Bytes)
    (rest : List Bytes) (acc : List (Bytes × Bytes)) :
    URL.parse_query_parts ⟨d, some P⟩ acc (partText (str "versionId", v) :: rest) =
      URL.parse_query_parts ⟨d, some { P with version_id := some v }⟩ acc rest := by
  have hpt : partText (str "versionId", v) = str "versionId" ++ 61 :: v := rfl
  rw [URL.parse_query_parts, hpt,
    splitOnce_append (show (61 : Nat) ∉ str "versionId" by decide) v]
  simp only [mfqp_verid]
  rfl

/-- One processing step: an `hl=`-keyed part sets `hash_link`. -/
theorem step_hash_link (d : DID) (P : URLParameters) (h : Bytes)
    (rest : List Bytes) (acc : List (Bytes × Bytes)) :
    URL.parse_query_parts ⟨d, some P⟩ acc (partText (str "hl", h) :: rest) =
      URL.parse_query_parts ⟨d, some { P with hash_link := some h }⟩ acc rest := by
  have hpt : partText (str "hl", h) = str "hl" ++ 61 :: h := rfl
  rw [URL.parse_query_parts, hpt,
    splitOnce_append (show (61 : Nat) ∉ str "hl" by decide) h]
  simp only [mfqp_hl]
  rfl

/-- Processing the extra (non-reserved) pairs: the URL is unchanged and the
accumulator folds the decoded pairs in. -/
theorem steps_extras (d : DID) (P : URLParameters) (m : List (Bytes × Bytes)) :
    ∀ acc, (∀ kv ∈ m, bytesOk kv.1 = true ∧ bytesOk kv.2 = true ∧ kv.1 ∉ reservedKeys) →
    URL.parse_query_parts ⟨d, some P⟩ acc
        (m.map fun kv => partText (url_encoded kv.1, url_encoded kv.2)) =
      some (⟨d, some P⟩, m.foldl (fun a kv => mapInsert kv.1 kv.2 a) acc) := by
  induction m with
  | nil => intro acc _; rfl
  | cons kv rest ih =>
    intro acc hm
    obtain ⟨hk, hv, hres⟩ := hm kv (by simp)
    have hk' := bytesOk_mem hk
    have hv' := bytesOk_mem hv
    have hpt : partText (url_encoded kv.1, url_encoded kv.2) =
        url_encoded kv.1 ++ 61 :: url_encoded kv.2 := rfl
    rw [List.map_cons, URL.parse_query_parts, hpt]
    have h61 : (61 : Nat) ∉ url_encoded kv.1 :=
      fun hmem => (enc_no_delim hk' hmem).2.2.2.2 rfl
    rw [splitOnce_append h61 (url_encoded kv.2)]
    have hne : ∀ w ∈ reservedKeys, kv.1 ≠ w := by
      intro w hw he; exact hres (he ▸ hw)
    have h1 : (url_encoded kv.1 == str "service") = false :=
      enc_beq_reserved_false hk' dec_reserved.1 (hne _ (by simp [reservedKeys]))
    have h2 : (url_encoded kv.1 == str "relativeRef") = false :=
      enc_beq_reserved_false hk' dec_reserved.2.1 (hne _ (by simp [reservedKeys]))
    have h3 : (url_encoded kv.1 == str "versionId") = false :=
      enc_beq_reserved_false hk' dec_reserved.2.2.1 (hne _ (by simp [reservedKeys]))
    have h4 : (url_encoded kv.1 == str "versionTime") = false :=
      enc_beq_reserved_false hk' dec_reserved.2.2.2.1 (hne _ (by simp [reservedKeys]))
    have h5 : (url_encoded kv.1 == str "hl") = false :=
      enc_beq_reserved_false hk' dec_reserved.2.2.2.2 (hne _ (by simp [reservedKeys]))
    simp only [mfqp_extra _ _ _ _ h1 h2 h3 h4 h5,
      decode_url_encoded hk', decode_url_encoded hv']
    rw [show ({ (⟨d, some P⟩ : URL) with parameters := some (getParams ⟨d, some P⟩) } : URL) =
        ⟨d, some P⟩ from rfl]
    rw [ih _ (fun x hx => hm x (List.mem_cons_of_mem kv hx))]
    rfl

/-- `parse_query` on an `&`-join of parts equals processing the parts one by
one and then storing the extras — the single-part branch and the
`split('&')` branch of the source behave identically. -/
theorem parse_query_eq_parts (u : URL) (l : List (Bytes × Bytes)) (hl : l ≠ [])
    (hno38 : ∀ kv ∈ l, 38 ∉ partText kv) (hno61 : ∀ kv ∈ l, (61 : Nat) ∉ kv.1) :
    URL.parse_query u (joinParts l) =
      (match URL.parse_query_parts u [] (l.map partText) with
       | some (u', acc) => some (u'.setExtra acc)
       | none => none) := by
  cases l with
  | nil => cases hl rfl
  | cons kv rest =>
    cases rest with
    | nil =>
      have hptk : partText kv = kv.1 ++ 61 :: kv.2 := rfl
      have hc : (partText kv).contains 38 = false := by
        simpa using hno38 kv (by simp)
      rw [show joinParts [kv] = partText kv from rfl, URL.parse_query, hc]
      simp only [Bool.not_false, if_true]
      rw [hptk, splitOnce_append (hno61 kv (by simp)) kv.2]
      rw [show List.map partText [kv] = [partText kv] from rfl, URL.parse_query_parts]
      rw [hptk, splitOnce_append (hno61 kv (by simp)) kv.2]
      cases hmf : URL.match_fixed_query_params u kv.1 kv.2 [] with
      | none => simp [hmf, URL.parse_query_parts]
      | some pr => simp [hmf, URL.parse_query_parts]
    | cons kv2 t =>
      rw [joinParts_cons2, URL.parse_query]
      have hc : (partText kv ++ 38 :: joinParts (kv2 :: t)).contains 38 = true := by
        simp
      rw [hc]
      simp only [Bool.not_true, Bool.false_eq_true, if_false]
      rw [← joinParts_cons2, splitAmp_joinParts _ (by simp) hno38]

/-- The `service` part of the canonical query (empty when unset). -/
def svcChunk : Option Bytes → List (Bytes × Bytes)
  | some s => [(str "service", s)]
  | none => []

/-- The `relativeRef` part of the canonical query. -/
def relChunk : Option Bytes → List (Bytes × Bytes)
  | some r => [(str "relativeRef", url_encoded r)]
  | none => []

/-- The `versionId` part of the canonical query. -/
def vidChunk : Option Bytes → List (Bytes × Bytes)
  | some v => [(str "versionId", v)]
  | none => []

/-- The `hl` part of the canonical query. -/
def hlChunk : Option Bytes → List (Bytes × Bytes)
  | some h => [(str "hl", h)]
  | none => []

/-- The extra pairs of the canonical query, keys and values encoded. -/
def extraChunk : Option (List (Bytes × Bytes)) → List (Bytes × Bytes)
  | some m => m.map fun kv => (url_encoded kv.1, url_encoded kv.2)
  | none => []

/-- The canonical query parts a parameter record formats to (version_time
is excluded — the amended class leaves it unset). -/
def qparts (p : URLParameters) : List (Bytes × Bytes) :=
  svcChunk p.service ++ relChunk p.relative_ref ++ vidChunk p.version_id ++
  hlChunk p.hash_link ++ extraChunk p.extra_query

theorem strServiceSplit : str "service=" = str "service" ++ [61] := by decide

theorem strRelRefSplit : str "relativeRef=" = str "relativeRef" ++ [61] := by decide

theorem strVerIdSplit : str "versionId=" = str "versionId" ++ [61] := by decide

theorem strHlSplit : str "hl=" = str "hl" ++ [61] := by decide

/-- The query text `Display` emits equals the flat text of the canonical
parts (each with a trailing `&`). -/
theorem queryText_eq (p : URLParameters) (hvt : p.version_time = none) :
    queryText p = partsText (qparts p) := by
  rw [queryText, qparts, hvt]
  cases hS : p.service <;> cases hR : p.relative_ref <;> cases hV : p.version_id <;>
    cases hH : p.hash_link <;> cases hE : p.extra_query <;>
      simp [partsText, svcChunk, relChunk, vidChunk, hlChunk, extraChunk,
        strServiceSplit, strRelRefSplit, strVerIdSplit, strHlSplit,
        List.map_map, Function.comp_def]

theorem step_service_opt (d : DID) (P P' : URLParameters) (hP : P.service = none)
    (oS : Option Bytes) (hP' : P' = { P with service := oS })
    (rest : List Bytes) (acc : List (Bytes × Bytes)) :
    URL.parse_query_parts ⟨d, some P⟩ acc
        (((svcChunk oS).map partText) ++ rest) =
      URL.parse_query_parts ⟨d, some P'⟩ acc rest := by
  subst hP'
  cases oS with
  | none =>
    simp only [svcChunk, List.map_nil, List.nil_append]
    rw [← hP]
  | some s =>
    simp only [svcChunk, List.map_cons, List.map_nil, List.singleton_append]
    exact step_service d P s rest acc

theorem step_relative_ref_opt (d : DID) (P P' : URLParameters) (hP : P.relative_ref = none)
    (oR : Option Bytes) (hR : ∀ r, oR = some r → bytesOk r = true)
    (hP' : P' = { P with relative_ref := oR })
    (rest : List Bytes) (acc : List (Bytes × Bytes)) :
    URL.parse_query_parts ⟨d, some P⟩ acc
        (((relChunk oR).map partText) ++ rest) =
      URL.parse_query_parts ⟨d, some P'⟩ acc rest := by
  subst hP'
  cases oR with
  | none =>
    simp only [relChunk, List.map_nil, List.nil_append]
    rw [← hP]
  | some r =>
    simp only [relChunk, List.map_cons, List.map_nil, List.singleton_append]
    exact step_relative_ref d P r (bytesOk_mem (hR r rfl)) rest acc

theorem step_version_id_opt (d : DID) (P P' : URLParameters) (hP : P.version_id = none)
    (oV : Option Bytes) (hP' : P' = { P with version_id := oV })
    (rest : List Bytes) (acc : List (Bytes × Bytes)) :
    URL.parse_query_parts ⟨d, some P⟩ acc
        (((vidChunk oV).map partText) ++ rest) =
      URL.parse_query_parts ⟨d, some P'⟩ acc rest := by
  subst hP'
  cases oV with
  | none =>
    simp only [vidChunk, List.map_nil, List.nil_append]
    rw [← hP]
  | some v =>
    simp only [vidChunk, List.map_cons, List.map_nil, List.singleton_append]
    exact step_version_id d P v rest acc

theorem step_hash_link_opt (d : DID) (P P' : URLParameters) (hP : P.hash_link = none)
    (oH : Option Bytes) (hP' : P' = { P with hash_link := oH })
    (rest : List Bytes) (acc : List (Bytes × Bytes)) :
    URL.parse_query_parts ⟨d, some P⟩ acc
        (((hlChunk oH).map partText) ++ rest) =
      URL.parse_query_parts ⟨d, some P'⟩ acc rest := by
  subst hP'
  cases oH with
  | none =>
    simp only [hlChunk, List.map_nil, List.nil_append]
    rw [← hP]
  | some h =>
    simp only [hlChunk, List.map_cons, List.map_nil, List.singleton_append]
    exact step_hash_link d P h rest acc

theorem steps_extras_opt (d : DID) (P : URLParameters)
    (m? : Option (List (Bytes × Bytes)))
    (hm : ∀ m, m? = some m →
      ∀ kv ∈ m, bytesOk kv.1 = true ∧ bytesOk kv.2 = true ∧ kv.1 ∉ reservedKeys)
    (acc : List (Bytes × Bytes)) :
    URL.parse_query_parts ⟨d, some P⟩ acc ((extraChunk m?).map partText) =
      some (⟨d, some P⟩,
        match m? with
        | some m => m.foldl (fun a kv => mapInsert kv.1 kv.2 a) acc
        | none => acc) := by
  cases m? with
  | none => rfl
  | some m =>
    simp only [extraChunk, List.map_map]
    have hmap : (m.map (partText ∘ fun kv : Bytes × Bytes =>
        (url_encoded kv.1, url_encoded kv.2))) =
        m.map fun kv : Bytes × Bytes => partText (url_encoded kv.1, url_encoded kv.2) := by
      simp [Function.comp_def]
    rw [hmap, steps_extras d P m acc (hm m rfl)]

/-- A byte other than `=` occurs in a part text only through its key or its
value. -/
theorem part_not_mem {x : Nat} {k v : Bytes} (hx : x ≠ 61) (hk : x ∉ k) (hv : x ∉ v) :
    x ∉ partText (k, v) := by
  intro hmem
  rw [show partText (k, v) = k ++ 61 :: v from rfl] at hmem
  simp only [List.mem_append, List.mem_cons] at hmem
  rcases hmem with h' | h' | h'
  · exact hk h'
  · exact hx h'
  · exact hv h'

/-- Per-element character facts about the canonical query parts. -/
theorem qparts_facts (p : URLParameters)
    (hS : ∀ s, p.service = some s → safeText s = true)
    (hV : ∀ v, p.version_id = some v → safeText v = true)
    (hH : ∀ h, p.hash_link = some h → safeText h = true)
    (hR : ∀ r, p.relative_ref = some r → bytesOk r = true)
    (hE : ∀ m, p.extra_query = some m →
      ∀ kv ∈ m, bytesOk kv.1 = true ∧ bytesOk kv.2 = true) :
    ∀ kv ∈ qparts p, (38 : Nat) ∉ partText kv ∧ (61 : Nat) ∉ kv.1 ∧
      (35 : Nat) ∉ partText kv := by
  intro kv hkv
  rw [qparts] at hkv
  simp only [List.mem_append] at hkv
  rcases hkv with ((((h | h) | h) | h) | h)
  · rcases hs : p.service with _ | s <;> rw [hs] at h
    · simp [svcChunk] at h
    · have hsv := safeText_mem (hS s hs)
      have hk : kv = (str "service", s) := by simpa [svcChunk] using h
      subst hk
      exact ⟨part_not_mem (by decide) (by decide) (fun hm => (hsv 38 hm).2.1 rfl),
        (show (61 : Nat) ∉ str "service" by decide),
        part_not_mem (by decide) (by decide) (fun hm => (hsv 35 hm).2.2 rfl)⟩
  · rcases hr : p.relative_ref with _ | r <;> rw [hr] at h
    · simp [relChunk] at h
    · have hr' := bytesOk_mem (hR r hr)
      have hk : kv = (str "relativeRef", url_encoded r) := by simpa [relChunk] using h
      subst hk
      exact ⟨part_not_mem (by decide) (by decide)
          (fun hm => (enc_no_delim hr' hm).2.2.2.1 rfl),
        (show (61 : Nat) ∉ str "relativeRef" by decide),
        part_not_mem (by decide) (by decide)
          (fun hm => (enc_no_delim hr' hm).2.2.1 rfl)⟩
  · rcases hv : p.version_id with _ | v <;> rw [hv] at h
    · simp [vidChunk] at h
    · have hv' := safeText_mem (hV v hv)
      have hk : kv = (str "versionId", v) := by simpa [vidChunk] using h
      subst hk
      exact ⟨part_not_mem (by decide) (by decide) (fun hm => (hv' 38 hm).2.1 rfl),
        (show (61 : Nat) ∉ str "versionId" by decide),
        part_not_mem (by decide) (by decide) (fun hm => (hv' 35 hm).2.2 rfl)⟩
  · rcases hh : p.hash_link with _ | hx <;> rw [hh] at h
    · simp [hlChunk] at h
    · have hh' := safeText_mem (hH hx hh)
      have hk : kv = (str "hl", hx) := by simpa [hlChunk] using h
      subst hk
      exact ⟨part_not_mem (by decide) (by decide) (fun hm => (hh' 38 hm).2.1 rfl),
        (show (61 : Nat) ∉ str "hl" by decide),
        part_not_mem (by decide) (by decide) (fun hm => (hh' 35 hm).2.2 rfl)⟩
  · rcases he : p.extra_query with _ | m <;> rw [he] at h
    · simp [extraChunk] at h
    · simp only [extraChunk, List.mem_map] at h
      obtain ⟨kv0, hkv0, hk⟩ := h
      obtain ⟨hbk, hbv⟩ := hE m he kv0 hkv0
      have hk' := bytesOk_mem hbk
      have hv' := bytesOk_mem hbv
      subst hk
      exact ⟨part_not_mem (by decide)
          (fun hm => (enc_no_delim hk' hm).2.2.2.1 rfl)
          (fun hm => (enc_no_delim hv' hm).2.2.2.1 rfl),
        (fun hm => (enc_no_delim hk' hm).2.2.2.2 rfl),
        part_not_mem (by decide)
          (fun hm => (enc_no_delim hk' hm).2.2.1 rfl)
          (fun hm => (enc_no_delim hv' hm).2.2.1 rfl)⟩

/-- Parsing the full canonical query of a parameter record (version_time
unset) starting from its routed path/fragment reconstructs the record. -/
theorem parse_query_full (d : DID) (p : URLParameters)
    (hvt : p.version_time = none)
    (hS : ∀ s, p.service = some s → safeText s = true)
    (hV : ∀ v, p.version_id = some v → safeText v = true)
    (hH : ∀ h, p.hash_link = some h → safeText h = true)
    (hR : ∀ r, p.relative_ref = some r → bytesOk r = true)
    (hE : ∀ m, p.extra_query = some m → m ≠ [] ∧ mapSorted m = true ∧
      ∀ kv ∈ m, bytesOk kv.1 = true ∧ bytesOk kv.2 = true ∧ kv.1 ∉ reservedKeys)
    (hne : qparts p ≠ []) :
    URL.parse_query ⟨d, some { path := p.path, fragment := p.fragment }⟩
        (joinParts (qparts p)) = some ⟨d, some p⟩ := by
  have hfacts := qparts_facts p hS hV hH hR
    (fun m hm kv hkv => ⟨((hE m hm).2.2 kv hkv).1, ((hE m hm).2.2 kv hkv).2.1⟩)
  rw [parse_query_eq_parts _ _ hne (fun kv hkv => (hfacts kv hkv).1)
    (fun kv hkv => (hfacts kv hkv).2.1)]
  rw [qparts, List.map_append, List.map_append, List.map_append, List.map_append]
  simp only [List.append_assoc]
  rw [step_service_opt d
    { path := p.path, fragment := p.fragment }
    { path := p.path, fragment := p.fragment, service := p.service }
    rfl p.service rfl]
  rw [step_relative_ref_opt d
    { path := p.path, fragment := p.fragment, service := p.service }
    { path := p.path, fragment := p.fragment, service := p.service,
      relative_ref := p.relative_ref }
    rfl p.relative_ref hR rfl]
  rw [step_version_id_opt d
    { path := p.path, fragment := p.fragment, service := p.service,
      relative_ref := p.relative_ref }
    { path := p.path, fragment := p.fragment, service := p.service,
      relative_ref := p.relative_ref, version_id := p.version_id }
    rfl p.version_id rfl]
  rw [step_hash_link_opt d
    { path := p.path, fragment := p.fragment, service := p.service,
      relative_ref := p.relative_ref, version_id := p.version_id }
    { path := p.path, fragment := p.fragment, service := p.service,
      relative_ref := p.relative_ref, version_id := p.version_id,
      hash_link := p.hash_link }
    rfl p.hash_link rfl]
  rw [steps_extras_opt d
    { path := p.path, fragment := p.fragment, service := p.service,
      relative_ref := p.relative_ref, version_id := p.version_id,
      hash_link := p.hash_link }
    p.extra_query (fun m hm => (hE m hm).2.2)]
  obtain ⟨pp, ff, sv, rr, vi, vt, hl2, ex⟩ := p
  simp only at hvt
  subst hvt
  cases ex with
  | none => rfl
  | some m =>
    obtain ⟨hm0, hmsort, _⟩ := hE m rfl
    have hfold : m.foldl (fun a kv => mapInsert kv.1 kv.2 a) ([] : List (Bytes × Bytes)) = m := by
      have := foldInsert_sorted m [] (by simpa using hmsort)
      simpa using this
    simp only [hfold]
    have hbe : m.isEmpty = false := by
      cases m with
      | nil => cases hm0 rfl
      | cons a t => rfl
    simp only [URL.setExtra, hbe]
    rfl

/-! ## C1: the safe class and the remaining glue -/

/-- Apply a check to an optional byte string (absent passes). -/
def optOk (f : Bytes → Bool) : Option Bytes → Bool
  | none => true
  | some s => f s

/-- The condition on a stored `extra_query`: non-empty, sorted (the
canonical `BTreeMap` shape), byte-valued, and free of reserved keys. -/
def extraOk : Option (List (Bytes × Bytes)) → Bool
  | none => true
  | some m =>
    !m.isEmpty && mapSorted m &&
      m.all fun kv => bytesOk kv.1 && bytesOk kv.2 && !(reservedKeys.contains kv.1)

/-- The class of Locators whose text round-trips: valid method name; byte
values everywhere; raw string fields ASCII free of `&`/`#`; version_time
unset; extra_query non-empty and unreserved when present; and at least one
parameter field set when the parameter record is present. -/
def SafeLocator (u : URL) : Bool :=
  validate_method_name u.did.name && bytesOk u.did.id &&
  match u.parameters with
  | none => true
  | some p =>
    (p.path.isSome || p.fragment.isSome || p.service.isSome || p.relative_ref.isSome ||
     p.version_id.isSome || p.hash_link.isSome || p.extra_query.isSome) &&
    p.version_time.isNone &&
    optOk bytesOk p.path && optOk bytesOk p.fragment && optOk bytesOk p.relative_ref &&
    optOk safeText p.service && optOk safeText p.version_id && optOk safeText p.hash_link &&
    extraOk p.extra_query

theorem mem_joinParts {x : Nat} : ∀ {l : List (Bytes × Bytes)}, x ∈ joinParts l →
    x = 38 ∨ ∃ kv ∈ l, x ∈ partText kv := by
  intro l
  induction l with
  | nil => intro hx; cases hx
  | cons kv rest ih =>
    cases rest with
    | nil =>
      intro hx
      right
      exact ⟨kv, by simp, hx⟩
    | cons kv2 t =>
      intro hx
      rw [joinParts_cons2] at hx
      simp only [List.mem_append, List.mem_cons] at hx
      rcases hx with h | h | h
      · right; exact ⟨kv, by simp, h⟩
      · left; exact h
      · rcases ih h with h' | ⟨kv', hkv', hm⟩
        · left; exact h'
        · right; exact ⟨kv', by simp [hkv'], hm⟩

theorem not_mem_joinParts {x : Nat} (hx38 : x ≠ 38) {l : List (Bytes × Bytes)}
    (hparts : ∀ kv ∈ l, x ∉ partText kv) : x ∉ joinParts l := by
  intro hmem
  rcases mem_joinParts hmem with h | ⟨kv, hkv, hmem'⟩
  · exact hx38 h
  · exact hparts kv hkv hmem'

/-- A present query (with version_time unset and non-empty extras) formats
to a non-empty canonical parts list. -/
theorem qparts_ne_of_present (p : URLParameters) (hvt : p.version_time = none)
    (hq : queryPresent p = true) (hEne : ∀ m, p.extra_query = some m → m ≠ []) :
    qparts p ≠ [] := by
  intro h0
  rw [qparts] at h0
  simp only [List.append_eq_nil] at h0
  obtain ⟨⟨⟨⟨hs, hr⟩, hv⟩, hh⟩, he⟩ := h0
  rw [queryPresent, hvt] at hq
  have hs' : p.service = none := by
    match hss : p.service with
    | none => rfl
    | some s =>
      rw [hss] at hs
      simp [svcChunk] at hs
  have hr' : p.relative_ref = none := by
    match hss : p.relative_ref with
    | none => rfl
    | some s =>
      rw [hss] at hr
      simp [relChunk] at hr
  have hv' : p.version_id = none := by
    match hss : p.version_id with
    | none => rfl
    | some s =>
      rw [hss] at hv
      simp [vidChunk] at hv
  have hh' : p.hash_link = none := by
    match hss : p.hash_link with
    | none => rfl
    | some s =>
      rw [hss] at hh
      simp [hlChunk] at hh
  have he' : p.extra_query = none := by
    match hss : p.extra_query with
    | none => rfl
    | some m =>
      rw [hss] at he
      simp only [extraChunk, List.map_eq_nil_iff] at he
      exact absurd he (hEne m hss)
  rw [hs', hr', hv', hh', he'] at hq
  simp at hq

/-- An absent query means the five query fields are all unset. -/
theorem query_fields_none (p : URLParameters) (hq : queryPresent p = false) :
    p.service = none ∧ p.relative_ref = none ∧ p.version_id = none ∧
      p.hash_link = none ∧ p.extra_query = none := by
  rw [queryPresent] at hq
  simp only [Bool.or_eq_false_iff] at hq
  exact ⟨by simpa using hq.1.1.1.1.1, by simpa using hq.1.1.1.1.2,
    by simpa using hq.1.1.1.2, by simpa using hq.1.2, by simpa using hq.2⟩

/-! ## C1: routing through `URL::parse` for each text shape -/

theorem enc_id_facts {id : Bytes} (hid : bytesOk id = true) :
    (47 : Nat) ∉ method_id_encoded id ∧ (63 : Nat) ∉ method_id_encoded id ∧
      (35 : Nat) ∉ method_id_encoded id := by
  refine ⟨?_, ?_, ?_⟩ <;> intro hx
  · exact (enc_no_delim (bytesOk_mem hid) hx).1 rfl
  · exact (enc_no_delim (bytesOk_mem hid) hx).2.1 rfl
  · exact (enc_no_delim (bytesOk_mem hid) hx).2.2.1 rfl

theorem enc_path_facts {pa : Bytes} (hpa : bytesOk pa = true) :
    (47 : Nat) ∉ url_encoded pa ∧ (63 : Nat) ∉ url_encoded pa ∧
      (35 : Nat) ∉ url_encoded pa := by
  refine ⟨?_, ?_, ?_⟩ <;> intro hx
  · exact (enc_no_delim (bytesOk_mem hpa) hx).1 rfl
  · exact (enc_no_delim (bytesOk_mem hpa) hx).2.1 rfl
  · exact (enc_no_delim (bytesOk_mem hpa) hx).2.2.1 rfl

/-- Routing: a bare identifier text parses to a Locator without parameters. -/
theorem parse_route_bare (name id : Bytes) (hname : validate_method_name name = true)
    (hid : bytesOk id = true) :
    URL.parse (str "did:" ++ (name ++ 58 :: method_id_encoded id)) =
      some ⟨⟨name, id⟩, none⟩ := by
  obtain ⟨h47, h63, h35⟩ := enc_id_facts hid
  simp only [URL.parse, stripDid_append, splitOnce_append (name_no_colon hname)]
  simp only [before_not_mem h63, before_not_mem h35, Bool.not_false, Bool.and_self, if_true]
  simp only [splitOnce_of_not_mem h47, URL.split_query, splitOnce_of_not_mem h63,
    URL.split_fragment, splitOnce_of_not_mem h35, hname, if_true]
  rw [url_decoded_no_pct (name_no_pct hname), decode_mid_encoded (bytesOk_mem hid)]

/-- Routing: identifier plus fragment. -/
theorem parse_route_frag (name id f : Bytes) (hname : validate_method_name name = true)
    (hid : bytesOk id = true) (hf : bytesOk f = true) :
    URL.parse (str "did:" ++ (name ++ 58 :: (method_id_encoded id ++ 35 :: url_encoded f))) =
      some ⟨⟨name, id⟩, some { fragment := some f }⟩ := by
  obtain ⟨h47, h63, h35⟩ := enc_id_facts hid
  obtain ⟨hf47, hf63, hf35⟩ := enc_path_facts hf
  have h63r : (63 : Nat) ∉ method_id_encoded id ++ 35 :: url_encoded f := by
    intro hx
    simp only [List.mem_append, List.mem_cons] at hx
    rcases hx with hx | hx | hx
    · exact h63 hx
    · cases hx
    · exact hf63 hx
  simp only [URL.parse, stripDid_append, splitOnce_append (name_no_colon hname)]
  rw [before_append h35 h47, before_cons_left]
  simp only [before_not_mem h63r, Bool.not_false, Bool.not_true, Bool.false_and,
    Bool.and_false, Bool.false_eq_true, if_false]
  simp only [URL.split_fragment, splitOnce_append h35, URL.match_fragment, hname, if_true]
  rw [url_decoded_no_pct (name_no_pct hname), decode_mid_encoded (bytesOk_mem hid),
    decode_url_encoded (bytesOk_mem hf)]
  rfl

/-- Routing: identifier plus query (no path, no fragment). -/
theorem parse_route_query (name id : Bytes) (p : URLParameters)
    (hname : validate_method_name name = true) (hid : bytesOk id = true)
    (hpp : p.path = none) (hff : p.fragment = none) (hvt : p.version_time = none)
    (hS : ∀ s, p.service = some s → safeText s = true)
    (hV : ∀ v, p.version_id = some v → safeText v = true)
    (hH : ∀ h, p.hash_link = some h → safeText h = true)
    (hR : ∀ r, p.relative_ref = some r → bytesOk r = true)
    (hE : ∀ m, p.extra_query = some m → m ≠ [] ∧ mapSorted m = true ∧
      ∀ kv ∈ m, bytesOk kv.1 = true ∧ bytesOk kv.2 = true ∧ kv.1 ∉ reservedKeys)
    (hne : qparts p ≠ []) :
    URL.parse
        (str "did:" ++ (name ++ 58 :: (method_id_encoded id ++ 63 :: joinParts (qparts p)))) =
      some ⟨⟨name, id⟩, some p⟩ := by
  obtain ⟨h47, h63, h35⟩ := enc_id_facts hid
  have hq35 : (35 : Nat) ∉ joinParts (qparts p) :=
    not_mem_joinParts (by decide)
      (fun kv hkv => (qparts_facts p hS hV hH hR
        (fun m hm kv hkv => ⟨((hE m hm).2.2 kv hkv).1, ((hE m hm).2.2 kv hkv).2.1⟩)
        kv hkv).2.2)
  simp only [URL.parse, stripDid_append, splitOnce_append (name_no_colon hname)]
  rw [before_append h63 h47, before_cons_left]
  rw [before_append h63 h35, before_cons_left]
  simp only [Bool.not_true, Bool.false_and, Bool.false_eq_true, if_false, if_true]
  simp only [URL.split_query, splitOnce_append h63, URL.match_query,
    splitOnce_of_not_mem hq35, hname, if_true]
  rw [url_decoded_no_pct (name_no_pct hname), decode_mid_encoded (bytesOk_mem hid)]
  have hfull := parse_query_full ⟨name, id⟩ p hvt hS hV hH hR hE hne
  rw [hpp, hff] at hfull
  simpa using hfull

/-- Routing: identifier plus query plus fragment. -/
theorem parse_route_query_frag (name id f : Bytes) (p : URLParameters)
    (hname : validate_method_name name = true) (hid : bytesOk id = true)
    (hf : bytesOk f = true)
    (hpp : p.path = none) (hff : p.fragment = some f) (hvt : p.version_time = none)
    (hS : ∀ s, p.service = some s → safeText s = true)
    (hV : ∀ v, p.version_id = some v → safeText v = true)
    (hH : ∀ h, p.hash_link = some h → safeText h = true)
    (hR : ∀ r, p.relative_ref = some r → bytesOk r = true)
    (hE : ∀ m, p.extra_query = some m → m ≠ [] ∧ mapSorted m = true ∧
      ∀ kv ∈ m, bytesOk kv.1 = true ∧ bytesOk kv.2 = true ∧ kv.1 ∉ reservedKeys)
    (hne : qparts p ≠ []) :
    URL.parse (str "did:" ++ (name ++ 58 :: (method_id_encoded id ++
        63 :: (joinParts (qparts p) ++ 35 :: url_encoded f)))) =
      some ⟨⟨name, id⟩, some p⟩ := by
  obtain ⟨h47, h63, h35⟩ := enc_id_facts hid
  have hq35 : (35 : Nat) ∉ joinParts (qparts p) :=
    not_mem_joinParts (by decide)
      (fun kv hkv => (qparts_facts p hS hV hH hR
        (fun m hm kv hkv => ⟨((hE m hm).2.2 kv hkv).1, ((hE m hm).2.2 kv hkv).2.1⟩)
        kv hkv).2.2)
  simp only [URL.parse, stripDid_append, splitOnce_append (name_no_colon hname)]
  rw [before_append h63 h47, before_cons_left]
  rw [before_append h63 h35, before_cons_left]
  simp only [Bool.not_true, Bool.false_and, Bool.false_eq_true, if_false, if_true]
  simp only [URL.split_query, splitOnce_append h63, URL.match_query,
    splitOnce_append hq35, URL.match_fragment, hname, if_true]
  rw [url_decoded_no_pct (name_no_pct hname), decode_mid_encoded (bytesOk_mem hid),
    decode_url_encoded (bytesOk_mem hf)]
  have hfull := parse_query_full ⟨name, id⟩ p hvt hS hV hH hR hE hne
  rw [hpp, hff] at hfull
  simpa using hfull

/-- Routing: identifier plus path (no query, no fragment). -/
theorem parse_route_path (name id pa : Bytes) (hname : validate_method_name name = true)
    (hid : bytesOk id = true) (hpa : bytesOk pa = true) :
    URL.parse (str "did:" ++ (name ++ 58 :: (method_id_encoded id ++ 47 :: url_encoded pa))) =
      some ⟨⟨name, id⟩, some { path := some pa }⟩ := by
  obtain ⟨h47, h63, h35⟩ := enc_id_facts hid
  obtain ⟨hp47, hp63, hp35⟩ := enc_path_facts hpa
  have h63r : (63 : Nat) ∉ method_id_encoded id ++ 47 :: url_encoded pa := by
    intro hx
    simp only [List.mem_append, List.mem_cons] at hx
    rcases hx with hx | hx | hx
    · exact h63 hx
    · cases hx
    · exact hp63 hx
  have h35r : (35 : Nat) ∉ method_id_encoded id ++ 47 :: url_encoded pa := by
    intro hx
    simp only [List.mem_append, List.mem_cons] at hx
    rcases hx with hx | hx | hx
    · exact h35 hx
    · cases hx
    · exact hp35 hx
  simp only [URL.parse, stripDid_append, splitOnce_append (name_no_colon hname)]
  simp only [before_not_mem h63r, before_not_mem h35r, Bool.not_false, Bool.and_self, if_true]
  simp only [splitOnce_append h47, URL.match_path, before_not_mem hp35, Bool.not_false,
    if_true, splitOnce_of_not_mem hp63, splitOnce_of_not_mem hp35, hname]
  rw [url_decoded_no_pct (name_no_pct hname), decode_mid_encoded (bytesOk_mem hid),
    decode_url_encoded (bytesOk_mem hpa)]

/-- Routing: identifier plus path plus fragment. -/
theorem parse_route_path_frag (name id pa f : Bytes)
    (hname : validate_method_name name = true) (hid : bytesOk id = true)
    (hpa : bytesOk pa = true) (hf : bytesOk f = true) :
    URL.parse (str "did:" ++ (name ++ 58 :: (method_id_encoded id ++
        47 :: (url_encoded pa ++ 35 :: url_encoded f)))) =
      some ⟨⟨name, id⟩, some { path := some pa, fragment := some f }⟩ := by
  obtain ⟨h47, h63, h35⟩ := enc_id_facts hid
  obtain ⟨hp47, hp63, hp35⟩ := enc_path_facts hpa
  obtain ⟨hf47, hf63, hf35⟩ := enc_path_facts hf
  have h63r : (63 : Nat) ∉ method_id_encoded id ++
      47 :: (url_encoded pa ++ 35 :: url_encoded f) := by
    intro hx
    simp only [List.mem_append, List.mem_cons] at hx
    rcases hx with hx | hx | hx | hx | hx
    · exact h63 hx
    · cases hx
    · exact hp63 hx
    · cases hx
    · exact hf63 hx
  simp only [URL.parse, stripDid_append, splitOnce_append (name_no_colon hname)]
  rw [before_not_mem h63r, before_append h35 h47, before_cons_right _ (by decide)]
  simp only [Bool.not_false, Bool.and_self, if_true]
  simp only [splitOnce_append h47, URL.match_path]
  rw [before_append hp35 hp63, before_cons_left]
  simp only [Bool.not_true, Bool.false_eq_true, if_false]
  simp only [splitOnce_append hp35, URL.match_fragment, hname, if_true, Option.map_some']
  rw [url_decoded_no_pct (name_no_pct hname), decode_mid_encoded (bytesOk_mem hid),
    decode_url_encoded (bytesOk_mem hpa), decode_url_encoded (bytesOk_mem hf)]

/-- Routing: identifier plus path plus query. -/
theorem parse_route_path_query (name id pa : Bytes) (p : URLParameters)
    (hname : validate_method_name name = true) (hid : bytesOk id = true)
    (hpa : bytesOk pa = true)
    (hpp : p.path = some pa) (hff : p.fragment = none) (hvt : p.version_time = none)
    (hS : ∀ s, p.service = some s → safeText s = true)
    (hV : ∀ v, p.version_id = some v → safeText v = true)
    (hH : ∀ h, p.hash_link = some h → safeText h = true)
    (hR : ∀ r, p.relative_ref = some r → bytesOk r = true)
    (hE : ∀ m, p.extra_query = some m → m ≠ [] ∧ mapSorted m = true ∧
      ∀ kv ∈ m, bytesOk kv.1 = true ∧ bytesOk kv.2 = true ∧ kv.1 ∉ reservedKeys)
    (hne : qparts p ≠ []) :
    URL.parse (str "did:" ++ (name ++ 58 :: (method_id_encoded id ++
        47 :: (url_encoded pa ++ 63 :: joinParts (qparts p))))) =
      some ⟨⟨name, id⟩, some p⟩ := by
  obtain ⟨h47, h63, h35⟩ := enc_id_facts hid
  obtain ⟨hp47, hp63, hp35⟩ := enc_path_facts hpa
  have hq35 : (35 : Nat) ∉ joinParts (qparts p) :=
    not_mem_joinParts (by decide)
      (fun kv hkv => (qparts_facts p hS hV hH hR
        (fun m hm kv hkv => ⟨((hE m hm).2.2 kv hkv).1, ((hE m hm).2.2 kv hkv).2.1⟩)
        kv hkv).2.2)
  simp only [URL.parse, stripDid_append, splitOnce_append (name_no_colon hname)]
  rw [before_append h63 h47, before_cons_right _ (by decide),
    before_append h35 h47, before_cons_right _ (by decide)]
  simp only [Bool.not_false, Bool.and_self, if_true]
  simp only [splitOnce_append h47, URL.match_path]
  rw [before_append hp35 hp63, before_cons_right _ (by decide)]
  simp only [Bool.not_false, if_true]
  simp only [splitOnce_append hp63, URL.match_query, splitOnce_of_not_mem hq35,
    hname, if_true, Option.map_some']
  rw [url_decoded_no_pct (name_no_pct hname), decode_mid_encoded (bytesOk_mem hid),
    decode_url_encoded (bytesOk_mem hpa)]
  have hfull := parse_query_full ⟨name, id⟩ p hvt hS hV hH hR hE hne
  rw [hpp, hff] at hfull
  simpa using hfull

/-- Routing: identifier plus path plus query plus fragment. -/
theorem parse_route_full (name id pa f : Bytes) (p : URLParameters)
    (hname : validate_method_name name = true) (hid : bytesOk id = true)
    (hpa : bytesOk pa = true) (hf : bytesOk f = true)
    (hpp : p.path = some pa) (hff : p.fragment = some f) (hvt : p.version_time = none)
    (hS : ∀ s, p.service = some s → safeText s = true)
    (hV : ∀ v, p.version_id = some v → safeText v = true)
    (hH : ∀ h, p.hash_link = some h → safeText h = true)
    (hR : ∀ r, p.relative_ref = some r → bytesOk r = true)
    (hE : ∀ m, p.extra_query = some m → m ≠ [] ∧ mapSorted m = true ∧
      ∀ kv ∈ m, bytesOk kv.1 = true ∧ bytesOk kv.2 = true ∧ kv.1 ∉ reservedKeys)
    (hne : qparts p ≠ []) :
    URL.parse (str "did:" ++ (name ++ 58 :: (method_id_encoded id ++
        47 :: (url_encoded pa ++ 63 :: (joinParts (qparts p) ++ 35 :: url_encoded f))))) =
      some ⟨⟨name, id⟩, some p⟩ := by
  obtain ⟨h47, h63, h35⟩ := enc_id_facts hid
  obtain ⟨hp47, hp63, hp35⟩ := enc_path_facts hpa
  have hq35 : (35 : Nat) ∉ joinParts (qparts p) :=
    not_mem_joinParts (by decide)
      (fun kv hkv => (qparts_facts p hS hV hH hR
        (fun m hm kv hkv => ⟨((hE m hm).2.2 kv hkv).1, ((hE m hm).2.2 kv hkv).2.1⟩)
        kv hkv).2.2)
  simp only [URL.parse, stripDid_append, splitOnce_append (name_no_colon hname)]
  rw [before_append h63 h47, before_cons_right _ (by decide),
    before_append h35 h47, before_cons_right _ (by decide)]
  simp only [Bool.not_false, Bool.and_self, if_true]
  simp only [splitOnce_append h47, URL.match_path]
  rw [before_append hp35 hp63, before_cons_right _ (by decide)]
  simp only [Bool.not_false, if_true]
  simp only [splitOnce_append hp63, URL.match_query, splitOnce_append hq35,
    URL.match_fragment, hname, if_true, Option.map_some']
  rw [url_decoded_no_pct (name_no_pct hname), decode_mid_encoded (bytesOk_mem hid),
    decode_url_encoded (bytesOk_mem hpa), decode_url_encoded (bytesOk_mem hf)]
  have hfull := parse_query_full ⟨name, id⟩ p hvt hS hV hH hR hE hne
  rw [hpp, hff] at hfull
  simpa using hfull

/-- C1 (amended): for every Locator in the `SafeLocator` class — valid
method name, byte-bounded id/path/fragment/relative_ref, ASCII `&`/`#`-free
service/versionId/hl, `version_time` unset, `extra_query` (when present)
non-empty, sorted and free of reserved keys, and at least one parameter
field set whenever the parameter record is present — parsing the displayed
text returns exactly the original Locator. -/
theorem c1_round_trip_amended (u : URL) (h : SafeLocator u = true) :
    URL.parse (URL.toText u) = some u := by
  obtain ⟨⟨name, id⟩, params⟩ := u
  simp only [SafeLocator, Bool.and_eq_true] at h
  obtain ⟨⟨hname, hid⟩, hp⟩ := h
  cases params with
  | none =>
    rw [URL.toText]
    simp [enc_name_id hname, List.append_assoc]
    exact parse_route_bare name id hname hid
  | some p =>
    simp only [Bool.and_eq_true] at hp
    obtain ⟨⟨⟨⟨⟨⟨⟨⟨hpres, hvtb⟩, hpath⟩, hfrag⟩, hrel⟩, hsvc⟩, hvid⟩, hhl⟩, hex⟩ := hp
    have hvt : p.version_time = none := by
      cases hv : p.version_time with
      | none => rfl
      | some v => rw [hv] at hvtb; simp [Option.isNone] at hvtb
    have hS : ∀ s, p.service = some s → safeText s = true := by
      intro s hs; rw [hs] at hsvc; exact hsvc
    have hV : ∀ v, p.version_id = some v → safeText v = true := by
      intro v hv; rw [hv] at hvid; exact hvid
    have hH : ∀ x, p.hash_link = some x → safeText x = true := by
      intro x hx; rw [hx] at hhl; exact hhl
    have hR : ∀ r, p.relative_ref = some r → bytesOk r = true := by
      intro r hr; rw [hr] at hrel; exact hrel
    have hE : ∀ m, p.extra_query = some m → m ≠ [] ∧ mapSorted m = true ∧
        ∀ kv ∈ m, bytesOk kv.1 = true ∧ bytesOk kv.2 = true ∧ kv.1 ∉ reservedKeys := by
      intro m hm
      rw [hm] at hex
      simp only [extraOk, Bool.and_eq_true] at hex
      obtain ⟨⟨hne0, hsort⟩, hall⟩ := hex
      refine ⟨?_, hsort, ?_⟩
      · intro h0; subst h0; simp [List.isEmpty] at hne0
      · intro kv hkv
        have h3 := List.all_eq_true.mp hall kv hkv
        simp only [Bool.and_eq_true] at h3
        refine ⟨h3.1.1, h3.1.2, ?_⟩
        simpa using h3.2
    cases hpa : p.path with
    | none =>
      cases hqp : queryPresent p with
      | false =>
        cases hfr : p.fragment with
        | none =>
          obtain ⟨hs0, hr0, hv0, hh0, he0⟩ := query_fields_none p hqp
          rw [hpa, hfr, hs0, hr0, hv0, hh0, he0] at hpres
          simp at hpres
        | some f =>
          have hfb : bytesOk f = true := by rw [hfr] at hfrag; exact hfrag
          obtain ⟨hs0, hr0, hv0, hh0, he0⟩ := query_fields_none p hqp
          have hpeq : p = { fragment := some f } := by
            obtain ⟨pp, ff, sv, rr, vi, vt, hl2, ex⟩ := p
            have e1 : pp = none := hpa
            have e2 : ff = some f := hfr
            have e3 : sv = none := hs0
            have e4 : rr = none := hr0
            have e5 : vi = none := hv0
            have e6 : vt = none := hvt
            have e7 : hl2 = none := hh0
            have e8 : ex = none := he0
            rw [e1, e2, e3, e4, e5, e6, e7, e8]
          rw [hpeq] at hqp
          rw [hpeq, URL.toText]
          simp [hqp, enc_name_id hname, List.append_assoc]
          exact parse_route_frag name id f hname hid hfb
      | true =>
        have hqne : qparts p ≠ [] :=
          qparts_ne_of_present p hvt hqp (fun m hm => (hE m hm).1)
        have hqt : stripAmpSuffix (63 :: queryText p) = 63 :: joinParts (qparts p) := by
          rw [queryText_eq p hvt, partsText_eq_joinParts _ hqne]
          rw [show (63 :: (joinParts (qparts p) ++ [38]) : Bytes) =
            (63 :: joinParts (qparts p)) ++ [38] from rfl]
          exact stripAmp_concat _
        cases hfr : p.fragment with
        | none =>
          rw [URL.toText]
          simp [hpa, hqp, hfr, hqt, enc_name_id hname, List.append_assoc]
          exact parse_route_query name id p hname hid hpa hfr hvt hS hV hH hR hE hqne
        | some f =>
          have hfb : bytesOk f = true := by rw [hfr] at hfrag; exact hfrag
          rw [URL.toText]
          simp [hpa, hqp, hfr, hqt, enc_name_id hname, List.append_assoc]
          exact parse_route_query_frag name id f p hname hid hfb hpa hfr hvt
            hS hV hH hR hE hqne
    | some pa =>
      have hpab : bytesOk pa = true := by rw [hpa] at hpath; exact hpath
      cases hqp : queryPresent p with
      | false =>
        obtain ⟨hs0, hr0, hv0, hh0, he0⟩ := query_fields_none p hqp
        cases hfr : p.fragment with
        | none =>
          have hpeq : p = { path := some pa } := by
            obtain ⟨pp, ff, sv, rr, vi, vt, hl2, ex⟩ := p
            have e1 : pp = some pa := hpa
            have e2 : ff = none := hfr
            have e3 : sv = none := hs0
            have e4 : rr = none := hr0
            have e5 : vi = none := hv0
            have e6 : vt = none := hvt
            have e7 : hl2 = none := hh0
            have e8 : ex = none := he0
            rw [e1, e2, e3, e4, e5, e6, e7, e8]
          rw [hpeq] at hqp
          rw [hpeq, URL.toText]
          simp [hqp, enc_name_id hname, List.append_assoc]
          exact parse_route_path name id pa hname hid hpab
        | some f =>
          have hfb : bytesOk f = true := by rw [hfr] at hfrag; exact hfrag
          have hpeq : p = { path := some pa, fragment := some f } := by
            obtain ⟨pp, ff, sv, rr, vi, vt, hl2, ex⟩ := p
            have e1 : pp = some pa := hpa
            have e2 : ff = some f := hfr
            have e3 : sv = none := hs0
            have e4 : rr = none := hr0
            have e5 : vi = none := hv0
            have e6 : vt = none := hvt
            have e7 : hl2 = none := hh0
            have e8 : ex = none := he0
            rw [e1, e2, e3, e4, e5, e6, e7, e8]
          rw [hpeq] at hqp
          rw [hpeq, URL.toText]
          simp [hqp, enc_name_id hname, List.append_assoc]
          exact parse_route_path_frag name id pa f hname hid hpab hfb
      | true =>
        have hqne : qparts p ≠ [] :=
          qparts_ne_of_present p hvt hqp (fun m hm => (hE m hm).1)
        have hqt : stripAmpSuffix (63 :: queryText p) = 63 :: joinParts (qparts p) := by
          rw [queryText_eq p hvt, partsText_eq_joinParts _ hqne]
          rw [show (63 :: (joinParts (qparts p) ++ [38]) : Bytes) =
            (63 :: joinParts (qparts p)) ++ [38] from rfl]
          exact stripAmp_concat _
        cases hfr : p.fragment with
        | none =>
          rw [URL.toText]
          simp [hpa, hqp, hfr, hqt, enc_name_id hname, List.append_assoc]
          exact parse_route_path_query name id pa p hname hid hpab hpa hfr hvt
            hS hV hH hR hE hqne
        | some f =>
          have hfb : bytesOk f = true := by rw [hfr] at hfrag; exact hfrag
          rw [URL.toText]
          simp [hpa, hqp, hfr, hqt, enc_name_id hname, List.append_assoc]
          exact parse_route_full name id pa f p hname hid hpab hfb hpa hfr hvt
            hS hV hH hR hE hqne

def c1uFix : URL :=
  ⟨⟨str "abc", str "123"⟩, some { path := some (str "p1"), fragment := some (str "frag"), service := some (str "agent"), extra_query := some [(str "k", str "v")] }⟩

/-- Witness for C1 (amended): a concrete safe Locator with path, fragment,
service and an extra query pair round-trips through `Display` and
`URL::parse`. -/
theorem c1_round_trip_amended_witness :
    SafeLocator c1uFix = true ∧ URL.parse (URL.toText c1uFix) = some c1uFix :=
  ⟨by decide, c1_round_trip_amended c1uFix (by decide)⟩

end DidToolkit
